import Mathlib

/-!
Verification of the hybrid retrieval & ranking core of the RAG_BHG repository:
a shallow embedding of `src/embeddings/vector_store.py`,
`src/retrieval/hybrid_search.py` and `src/retrieval/reranker.py`.

Python floats are modelled as exact rationals (`ℚ`), Python strings as `String`
with explicitly structural character-level operations, and Python dicts as
insertion-ordered association lists, matching CPython's documented
insertion-order-preserving dict semantics. External collaborators (the
embedding provider, the FAISS nearest-neighbour kernel, the cross-encoder
model) are parameters of the embedded functions; everything downstream of
them is translated from the source.
-/

/-! ### Python string primitives -/

/-- Python `str.lower()` restricted to ASCII case mapping. -/
def lowerChar (c : Char) : Char :=
  if c.isUpper then Char.ofNat (c.toNat + 32) else c

/-- Python `s.lower()`. -/
def lowerStr (s : String) : String :=
  ⟨s.data.map lowerChar⟩

/-- Does `l` start with `p`? (helper for substring containment). -/
def startsList : List Char → List Char → Bool
  | _, [] => true
  | [], _ :: _ => false
  | a :: as, b :: bs => a = b && startsList as bs

/-- Does `hay` contain `sub` as a contiguous sublist?  Models Python's
`sub in hay` on strings. -/
def hasSubList (sub : List Char) : List Char → Bool
  | [] => sub.isEmpty
  | c :: rest => startsList (c :: rest) sub || hasSubList sub rest

/-- Python `sub in hay` for strings. -/
def strHasSub (hay sub : String) : Bool :=
  hasSubList sub.data hay.data

/-- Helper for Python `s.split()`: accumulate the current word (reversed)
while scanning. -/
def pyWordsAux : List Char → List Char → List String
  | [], acc => if acc.isEmpty then [] else [⟨acc.reverse⟩]
  | c :: rest, acc =>
    if c.isWhitespace then
      if acc.isEmpty then pyWordsAux rest [] else ⟨acc.reverse⟩ :: pyWordsAux rest []
    else pyWordsAux rest (c :: acc)

/-- Python `s.split()` (split on whitespace runs, no empty pieces). -/
def pyWords (s : String) : List String :=
  pyWordsAux s.data []

/-- Python regex `\w` character class (ASCII fragment): letters, digits, `_`. -/
def isWordChar (c : Char) : Bool :=
  c.isAlphanum || c = '_'

/-- `re.sub(r'[^\w\s]', ' ', text)`: replace every character that is neither a
word character nor whitespace by a space. -/
def stripPunct (s : String) : String :=
  ⟨s.data.map (fun c => if isWordChar c || c.isWhitespace then c else ' ')⟩

/-! ### Python dict as an insertion-ordered association list -/

/-- Python `d[k]` / `k in d` lookup: first (and by construction only) binding. -/
def lookupD {β : Type} (k : String) : List (String × β) → Option β
  | [] => none
  | (k₁, v) :: rest => if k₁ = k then some v else lookupD k rest

/-- Python `d[k] += v` on a key assumed present: add to the stored value,
keeping the insertion position (a no-op when the key is absent, matching the
source which guards this with a containment check). -/
def dictAdd : List (String × ℚ) → String → ℚ → List (String × ℚ)
  | [], _, _ => []
  | (k₁, v₁) :: rest, k, v =>
    if k₁ = k then (k₁, v₁ + v) :: rest else (k₁, v₁) :: dictAdd rest k v

/-- Python `d[k] = v`: overwrite in place if present (keeping the original
insertion position, as CPython does), else append at the end. -/
def dictSet {β : Type} : List (String × β) → String → β → List (String × β)
  | [], k, v => [(k, v)]
  | (k₁, v₁) :: rest, k, v =>
    if k₁ = k then (k₁, v) :: rest else (k₁, v₁) :: dictSet rest k v

/-- Numeric lookup defaulting to `0` (used to state facts about accumulated
score dictionaries). -/
def lookupQ (d : List (String × ℚ)) (k : String) : ℚ :=
  (lookupD k d).getD 0

/-! ### Stable descending sort

Python's `list.sort(key=..., reverse=True)` and `sorted(..., reverse=True)`
are stable: elements with equal keys keep their relative input order, and
`reverse=True` does not reverse ties.  A stable insertion sort on a
descending key models this exactly. -/

/-- Insert `x` into a (descending-by-`key`) sorted list, after all elements
with a key `≥ key x` (so earlier-inserted equal keys stay first). -/
def insertDesc {α : Type} (key : α → ℚ) (x : α) : List α → List α
  | [] => [x]
  | y :: ys => if key y ≤ key x then x :: y :: ys else y :: insertDesc key x ys

/-- Stable sort, descending by `key`: models Python's stable
`sort(key=..., reverse=True)`. -/
def sortDesc {α : Type} (key : α → ℚ) : List α → List α
  | [] => []
  | x :: xs => insertDesc key x (sortDesc key xs)

/-! ### Data model (spec §3, mirroring the Python dataclasses / result dicts) -/

/-- A chunk as produced by ingestion (`chunk.content`, `chunk.metadata`,
`chunk.chunk_id`); metadata is a string-to-string map. -/
structure Chunk where
  chunk_id : String
  content : String
  metadata : List (String × String)
deriving DecidableEq, Repr

/-- A result dict built by `VectorStore` (`chunk_id`, `content`, `metadata`,
`score`, `rank`, plus the keys set later by fusion / reranking, absent keys
modelled by defaults). -/
structure SearchDoc where
  chunk_id : String
  content : String
  metadata : List (String × String)
  score : ℚ
  rank : Nat
  rrf_score : ℚ := 0
  original_score : ℚ := 0
  rerank_score : ℚ := 0
  match_count : Nat := 0
deriving DecidableEq, Repr

/-- The shapes taken by the `match_details` dict of `SearchResult`
(`None`, `{'vector_score': ...}`, `{'bm25_score': ..., 'matched_terms': ...}`,
`{'original_score': ..., 'rerank_score': ...}`). -/
inductive MatchDetails where
  | noneDetails : MatchDetails
  | vector (vector_score : ℚ) : MatchDetails
  | bm25 (bm25_score : ℚ) (matched_terms : List String) : MatchDetails
  | reranked (original_score rerank_score : Option ℚ) : MatchDetails
deriving DecidableEq, Repr

/-- The `SearchResult` dataclass of `hybrid_search.py`. -/
structure SearchResult where
  chunk_id : String
  content : String
  metadata : List (String × String)
  score : ℚ
  rank : Nat
  source : String
  match_details : MatchDetails
deriving DecidableEq, Repr

/-- The `RerankResult` dataclass of `reranker.py`. -/
structure RerankResult where
  chunk_id : String
  content : String
  metadata : List (String × String)
  original_score : ℚ
  rerank_score : ℚ
  combined_score : ℚ
  original_rank : Nat
  new_rank : Nat
deriving DecidableEq, Repr

/-- The FAISS-side store state: parallel `faiss_documents` and
`faiss_metadata` lists (the vector index itself is external; only the
metadata bookkeeping decides the claims below). -/
structure FaissState where
  faiss_documents : List String
  faiss_metadata : List (List (String × String))
deriving DecidableEq, Repr

namespace VectorStore

/-- `VectorStore._add_to_faiss` (vector_store.py:192-210): append each text,
and append each metadata dict merged with its `chunk_id`
(`{**metadata, "chunk_id": id_}`). -/
def add_to_faiss (st : FaissState) (texts : List String)
    (metadatas : List (List (String × String))) (ids : List String) : FaissState :=
  { faiss_documents := st.faiss_documents ++ texts,
    faiss_metadata :=
      st.faiss_metadata ++
        (metadatas.zip ids).map (fun mi => dictSet mi.1 "chunk_id" mi.2) }

/-- `VectorStore.add_chunks` (vector_store.py:146-180), FAISS backend:
extract texts / metadatas / ids from the chunks and delegate to
`_add_to_faiss` (embedding generation is external and does not touch the
indexed bookkeeping). -/
def add_chunks (st : FaissState) (chunks : List Chunk) : FaissState :=
  add_to_faiss st (chunks.map (·.content)) (chunks.map (·.metadata))
    (chunks.map (·.chunk_id))

/-- Number of indexed entries whose `chunk_id` metadata equals `cid`. -/
def countId (st : FaissState) (cid : String) : Nat :=
  st.faiss_metadata.countP (fun m => lookupD "chunk_id" m = some cid)

end VectorStore

/-! ### Configuration defaults (`src/config/settings.py`, `SearchConfig`) -/

namespace Settings

/-- `SearchConfig.similarity_threshold = 0.15`. -/
def similarity_threshold : ℚ := 3 / 20

/-- `SearchConfig.top_k_vector = 50`. -/
def top_k_vector : Nat := 50

/-- `SearchConfig.top_k_keyword = 50`. -/
def top_k_keyword : Nat := 50

/-- `SearchConfig.top_k_final = 20`. -/
def top_k_final : Nat := 20

end Settings

/-! ### Reciprocal rank fusion accumulation (shared loop shape)

Both RRF implementations run the same double loop, differing only in the
per-occurrence contribution; the shared state is the pair of dicts
`fused_scores` / `all_results`. -/

/-- The two dicts built by the RRF loops. -/
structure RRFState (α : Type) where
  fused : List (String × ℚ)
  all : List (String × α)

/-- One loop body iteration: if the id is already in `fused_scores`, add the
contribution; otherwise insert both the score and the (first-occurrence)
result. -/
def rrfStep {α : Type} (idOf : α → String) (w : ℚ) (st : RRFState α) (r : α) :
    RRFState α :=
  if (lookupD (idOf r) st.fused).isSome then
    { st with fused := dictAdd st.fused (idOf r) w }
  else
    { fused := st.fused ++ [(idOf r, w)], all := st.all ++ [(idOf r, r)] }

namespace VectorStore

instance : Inhabited SearchDoc :=
  ⟨{ chunk_id := "", content := "", metadata := [], score := 0, rank := 0 }⟩

/-- Inner loop of `VectorStore._reciprocal_rank_fusion`
(vector_store.py:441-452): `for rank, result in enumerate(result_list)` with
contribution `1 / (k + rank + 1)` (0-based `rank`). -/
def rrfList (k : ℚ) : RRFState SearchDoc → List SearchDoc → Nat → RRFState SearchDoc
  | st, [], _ => st
  | st, r :: rs, rank =>
    rrfList k (rrfStep (·.chunk_id) (1 / (k + (rank : ℚ) + 1)) st r) rs (rank + 1)

/-- `VectorStore._reciprocal_rank_fusion` (vector_store.py:434-465): build the
two dicts, then emit one result per fused id (a copy of its first occurrence
with `rrf_score` and `score` set to the fused score), sorted descending by
`rrf_score`. -/
def reciprocal_rank_fusion (result_lists : List (List SearchDoc)) (k : ℚ) :
    List SearchDoc :=
  let st := result_lists.foldl (fun st lst => rrfList k st lst 0) ⟨[], []⟩
  let fused_results := st.fused.map (fun cs =>
    { ((lookupD cs.1 st.all).getD default) with rrf_score := cs.2, score := cs.2 })
  sortDesc (·.rrf_score) fused_results

/-- AND-semantics metadata filter of `_search_faiss` (vector_store.py:296-299):
`all(metadata.get(key) == value for key, value in filter_dict.items())`. -/
def matchesFilter (filter_dict : List (String × String))
    (metadata : List (String × String)) : Bool :=
  filter_dict.all (fun kv => decide (lookupD kv.1 metadata = some kv.2))

/-- Result-formatting loop of `VectorStore._search_faiss`
(vector_store.py:287-309): walk the `(distance, index)` pairs returned by the
FAISS kernel (an external collaborator, hence a parameter), `break` at index
`-1`, skip entries failing the metadata filter, and format the rest;
`rank` is the 1-based enumerate position (skipped entries included). -/
def search_faiss_loop (st : FaissState)
    (filter_dict : Option (List (String × String))) :
    List (ℚ × Int) → Nat → List SearchDoc
  | [], _ => []
  | (dist, idx) :: rest, i =>
    if idx = -1 then []
    else
      let metadata := st.faiss_metadata.getD idx.toNat []
      let keep := match filter_dict with
        | some fd => matchesFilter fd metadata
        | none => true
      if keep then
        { chunk_id := (lookupD "chunk_id" metadata).getD "",
          content := st.faiss_documents.getD idx.toNat "",
          metadata := metadata,
          score := dist,
          rank := i + 1 } :: search_faiss_loop st filter_dict rest (i + 1)
      else search_faiss_loop st filter_dict rest (i + 1)

/-- `VectorStore._search_faiss` (vector_store.py:272-309), with the FAISS
nearest-neighbour answer (`zip(distances[0], indices[0])`, already truncated
by FAISS itself to `min(max(top_k * 2, 1), ntotal)` entries) as a parameter. -/
def search_faiss (st : FaissState) (filter_dict : Option (List (String × String)))
    (ranked : List (ℚ × Int)) : List SearchDoc :=
  search_faiss_loop st filter_dict ranked 0

/-- Rank-reassignment loop shared by `_rerank_results`
(vector_store.py:341-342): `result["rank"] = i + 1`. -/
def assignRanks : List SearchDoc → Nat → List SearchDoc
  | [], _ => []
  | r :: rs, n => { r with rank := n + 1 } :: assignRanks rs (n + 1)

/-- `VectorStore._rerank_results` (vector_store.py:311-348), happy path, with
the cross-encoder scores (`reranker.predict`, external) as a parameter
aligned positionally with the results: set `original_score` / `rerank_score`,
replace `score` by `0.7 * rerank + 0.3 * original`, stable-sort descending by
the combined score, and reassign 1-based ranks. -/
def rerank_results (rerank_scores : List ℚ) (results : List SearchDoc) :
    List SearchDoc :=
  let scored := (results.zip rerank_scores).map (fun rr =>
    { rr.1 with
        original_score := rr.1.score,
        rerank_score := rr.2,
        score := 7 / 10 * rr.2 + 3 / 10 * rr.1.score })
  assignRanks (sortDesc (·.score) scored) 0

/-- `VectorStore.search` (vector_store.py:212-242): backend results (and, when
a reranker is configured and the result set is non-empty, their reranking)
are filtered by the similarity threshold and only then truncated to `top_k`. -/
def search (hasReranker : Bool) (rerank_scores : List ℚ)
    (backend_results : List SearchDoc) (similarity_threshold : ℚ)
    (top_k : Nat) : List SearchDoc :=
  let results :=
    if hasReranker && decide (0 < backend_results.length) then
      rerank_results rerank_scores backend_results
    else backend_results
  (results.filter (fun r => similarity_threshold ≤ r.score)).take top_k

/-- Scoring loop of `VectorStore._keyword_search` (vector_store.py:411-427),
FAISS branch: for each `(doc, metadata)` pair count the query terms contained
in the lowercased document and keep positive-count entries with score
`matches / len(query_terms)` (the emitted dicts carry no `rank` key;
the `rank` field keeps its absent-key default `0`). -/
def kwEntries (query_terms : List String) :
    List (String × List (String × String)) → List SearchDoc
  | [] => []
  | (doc, metadata) :: rest =>
    let doc_lower := lowerStr doc
    let matchCnt := query_terms.countP (fun term => strHasSub doc_lower term)
    if 0 < matchCnt then
      { chunk_id := (lookupD "chunk_id" metadata).getD "",
        content := doc,
        metadata := metadata,
        score := (matchCnt : ℚ) / (query_terms.length : ℚ),
        rank := 0,
        match_count := matchCnt } :: kwEntries query_terms rest
    else kwEntries query_terms rest

/-- `VectorStore._keyword_search` (vector_store.py:379-432), FAISS branch:
tokenize the query with `query.lower().split()`, score every stored document,
sort descending by score and truncate to `top_k`. -/
def keyword_search (st : FaissState) (query : String) (top_k : Nat) :
    List SearchDoc :=
  let query_terms := pyWords (lowerStr query)
  let results := kwEntries query_terms (st.faiss_documents.zip st.faiss_metadata)
  (sortDesc (·.score) results).take top_k

/-- `VectorStore.hybrid_search` (vector_store.py:350-377): vector search (with
threshold filtering inside `search`), keyword search, RRF fusion with
`k = 60`, optional reranking of the fused list, then truncation to `top_k`.
No similarity-threshold filter is applied after fusion. -/
def hybrid_search (st : FaissState) (hasReranker : Bool)
    (rerank_scores_vector rerank_scores_fused : List ℚ)
    (backend_results : List SearchDoc) (similarity_threshold : ℚ)
    (query : String) (top_k_vector top_k_keyword top_k : Nat) : List SearchDoc :=
  let vector_results :=
    search hasReranker rerank_scores_vector backend_results similarity_threshold
      top_k_vector
  let keyword_results := keyword_search st query top_k_keyword
  let fused_results := reciprocal_rank_fusion [vector_results, keyword_results] 60
  let fused_results :=
    if hasReranker then rerank_results rerank_scores_fused fused_results
    else fused_results
  fused_results.take top_k

end VectorStore

/-! ### `HybridSearchEngine` (`src/retrieval/hybrid_search.py`) -/

namespace HybridSearch

instance : Inhabited SearchResult :=
  ⟨{ chunk_id := "", content := "", metadata := [], score := 0, rank := 0,
     source := "", match_details := .noneDetails }⟩

/-- The fixed stopword set of `_tokenize` (hybrid_search.py:387-390). -/
def stopwords : List String :=
  ["el", "la", "de", "que", "y", "a", "en", "un", "por", "con",
   "para", "es", "se", "del", "al", "los", "las", "una", "su"]

/-- Pre-stopword tokens of `_tokenize`: punctuation replaced by spaces, then
`text.split()`. -/
def rawTokens (text : String) : List String :=
  pyWords (stripPunct text)

/-- `HybridSearchEngine._tokenize` (hybrid_search.py:380-392). -/
def tokenize (text : String) : List String :=
  (rawTokens text).filter (fun t => decide (t ≠ "" ∧ t ∉ stopwords))

/-- `HybridSearchEngine._update_doc_stats` (hybrid_search.py:409-417):
document count and average tokenized length (default `100` on an empty
corpus). -/
def update_doc_stats (docs : List Chunk) : Nat × ℚ :=
  let total_docs := docs.length
  let avg : ℚ :=
    if 0 < total_docs then
      ((docs.map (fun d => ((tokenize d.content).length : ℚ))).sum) / (total_docs : ℚ)
    else 100
  (total_docs, avg)

/-- `HybridSearchEngine._calculate_bm25_score` (hybrid_search.py:323-362) with
the instance parameters `bm25_k1`, `bm25_b` explicit and the IDF estimate
(`_get_idf`, whose value is a `math.log` float) as an external parameter. -/
def calculate_bm25_score (k1 b : ℚ) (idf : String → ℚ)
    (query_tokens : List String) (content : String) (avg_doc_length : ℚ) : ℚ :=
  let doc_tokens := tokenize (lowerStr content)
  let doc_length : ℚ := (doc_tokens.length : ℚ)
  let avgdl := if avg_doc_length = 0 then max doc_length 100 else avg_doc_length
  query_tokens.foldl (fun score term =>
    let tf : ℚ := (doc_tokens.count term : ℚ)
    if tf = 0 then score
    else
      let numerator := idf term * tf * (k1 + 1)
      let denominator := tf + k1 * (1 - b + b * (doc_length / avgdl))
      if 0 < denominator then score + numerator / denominator else score) 0

/-- `HybridSearchEngine._get_matched_terms` (hybrid_search.py:394-407). -/
def get_matched_terms (query_tokens : List String) (content : String) :
    List String :=
  let content_lower := lowerStr content
  query_tokens.filter (fun term => strHasSub content_lower term)

/-- Result-building loop of `_keyword_search` (hybrid_search.py:144-158):
1-based ranks, source `keyword`, BM25 match details. -/
def mkKeywordResults (query_tokens : List String) :
    List (Chunk × ℚ) → Nat → List SearchResult
  | [], _ => []
  | (doc, score) :: rest, i =>
    { chunk_id := doc.chunk_id,
      content := doc.content,
      metadata := doc.metadata,
      score := score,
      rank := i + 1,
      source := "keyword",
      match_details :=
        .bm25 score (get_matched_terms query_tokens doc.content) }
      :: mkKeywordResults query_tokens rest (i + 1)

/-- `HybridSearchEngine._keyword_search` (hybrid_search.py:107-160): empty
corpus short-circuits to `[]`; otherwise tokenize the lowercased query
(plus lowercased boost keywords), keep documents with positive BM25 score,
sort descending and truncate to `top_k`. -/
def keyword_search (all_docs : List Chunk) (query : String) (top_k : Nat)
    (boost_keywords : List String) (idf : String → ℚ) : List SearchResult :=
  if all_docs.isEmpty then []
  else
    let stats := update_doc_stats all_docs
    let query_tokens := tokenize (lowerStr query) ++ boost_keywords.map lowerStr
    let scores := all_docs.filterMap (fun doc =>
      let score := calculate_bm25_score (6 / 5) (3 / 4) idf query_tokens
        doc.content stats.2
      if 0 < score then some (doc, score) else none)
    let sorted := sortDesc (·.2) scores
    mkKeywordResults query_tokens (sorted.take top_k) 0

/-- Inner loop of `HybridSearchEngine._reciprocal_rank_fusion`
(hybrid_search.py:227-238): contribution `1 / (k + result.rank)` using the
result's stored 1-based `rank` field. -/
def rrfList (k : ℚ) (st : RRFState SearchResult) (lst : List SearchResult) :
    RRFState SearchResult :=
  lst.foldl (fun st r => rrfStep (·.chunk_id) (1 / (k + (r.rank : ℚ))) st r) st

/-- Output loop shared by `_reciprocal_rank_fusion` (hybrid_search.py:240-251)
and `_weighted_fusion` (hybrid_search.py:308-319): walk the score pairs in
descending-score order, and emit the first-occurrence result with `score`,
`source` and `rank` rewritten. -/
def buildFused (all : List (String × SearchResult)) :
    List (String × ℚ) → Nat → List SearchResult
  | [], _ => []
  | cs :: rest, n =>
    { ((lookupD cs.1 all).getD default) with
        score := cs.2, source := "hybrid", rank := n + 1 }
      :: buildFused all rest (n + 1)

/-- `HybridSearchEngine._reciprocal_rank_fusion` (hybrid_search.py:218-253). -/
def reciprocal_rank_fusion (result_lists : List (List SearchResult)) (k : ℚ) :
    List SearchResult :=
  let st := result_lists.foldl (rrfList k) ⟨[], []⟩
  buildFused st.all (sortDesc (·.2) st.fused) 0

/-- `max(r.score for r in result_list)` over a non-empty list. -/
def maxQ (x : ℚ) (l : List ℚ) : ℚ := l.foldl max x

/-- `min(r.score for r in result_list)` over a non-empty list. -/
def minQ (x : ℚ) (l : List ℚ) : ℚ := l.foldl min x

/-- Normalization step of `_weighted_fusion` (hybrid_search.py:264-291):
min-max scale a list to `[0,1]` when its score range is positive, and leave a
zero-range (all-equal-scores) list unnormalized. -/
def normalizeList (result_list : List SearchResult) : List SearchResult :=
  match result_list with
  | [] => []
  | r0 :: rest =>
    let max_score := maxQ r0.score (rest.map (·.score))
    let min_score := minQ r0.score (rest.map (·.score))
    let range_score := max_score - min_score
    if 0 < range_score then
      (r0 :: rest).map (fun r =>
        { r with score := (r.score - min_score) / range_score })
    else r0 :: rest

/-- `HybridSearchEngine._weighted_fusion` (hybrid_search.py:255-321):
normalize each list, accumulate `score * weight` per chunk id with the same
dict loop as RRF, and emit descending by combined score (weights are a
required argument here; the caller passes `[0.6, 0.4]`). -/
def weighted_fusion (result_lists : List (List SearchResult))
    (weights : List ℚ) : List SearchResult :=
  let normalized_lists := result_lists.map normalizeList
  let st := (normalized_lists.zip weights).foldl (fun st lw =>
    lw.1.foldl (fun st r => rrfStep (·.chunk_id) (r.score * lw.2) st r) st)
    ⟨[], []⟩
  buildFused st.all (sortDesc (·.2) st.fused) 0

end HybridSearch

/-! ### `AdvancedReranker` (`src/retrieval/reranker.py`) -/

namespace Reranker

/-- A document dict passed to `rerank` (`content` and `score`, optionally
`chunk_id` and `metadata`). -/
structure RDoc where
  chunk_id : Option String
  content : String
  metadata : List (String × String)
  score : ℚ
deriving DecidableEq, Repr

/-- `AdvancedReranker._combine_scores` (reranker.py:201-219), with the
instance attributes `combine_method`, `weight_original`, `weight_rerank`
explicit. -/
def combine_scores (combine_method : String) (weight_original weight_rerank : ℚ)
    (original_score rerank_score : ℚ) : ℚ :=
  if combine_method = "weighted" then
    weight_original * original_score + weight_rerank * rerank_score
  else if combine_method = "multiply" then original_score * rerank_score
  else if combine_method = "rrf" then
    1 / (60 + 1 / original_score) + 1 / (60 + 1 / rerank_score)
  else rerank_score

/-- `new_rank` assignment loop (reranker.py:155-156 and 261-262):
`result.new_rank = i + 1` along the sorted list. -/
def assignNewRanks : List RerankResult → Nat → List RerankResult
  | [], _ => []
  | r :: rs, n => { r with new_rank := n + 1 } :: assignNewRanks rs (n + 1)

/-- Per-document result construction of `_fallback_rerank`
(reranker.py:233-257): lexical-overlap `rerank_score` (fraction of distinct
query terms contained in the lowercased content, with the match count doubled
when the whole lowercased query is contained), combined with the original
score. -/
def mkFallback (combine_method : String) (w_orig w_rr : ℚ) (q : String)
    (query_terms : List String) : List RDoc → Nat → List RerankResult
  | [], _ => []
  | doc :: rest, i =>
    let content_lower := lowerStr doc.content
    let matches0 := query_terms.countP (fun term => strHasSub content_lower term)
    let matchCnt :=
      if strHasSub content_lower (lowerStr q) then matches0 * 2 else matches0
    let rerank_score : ℚ :=
      if query_terms.isEmpty then 0
      else (matchCnt : ℚ) / (query_terms.length : ℚ)
    { chunk_id := doc.chunk_id.getD (toString i),
      content := doc.content,
      metadata := doc.metadata,
      original_score := doc.score,
      rerank_score := rerank_score,
      combined_score := combine_scores combine_method w_orig w_rr doc.score rerank_score,
      original_rank := i + 1,
      new_rank := 0 }
      :: mkFallback combine_method w_orig w_rr q query_terms rest (i + 1)

/-- `AdvancedReranker._fallback_rerank` (reranker.py:221-267):
`query_terms = set(query.lower().split())`; build per-document results,
stable-sort descending by `combined_score`, assign `new_rank`, and truncate
only when `top_k` is truthy. -/
def fallback_rerank (combine_method : String) (w_orig w_rr : ℚ) (q : String)
    (documents : List RDoc) (top_k : Option Nat) : List RerankResult :=
  let query_terms := (pyWords (lowerStr q)).dedup
  let results := mkFallback combine_method w_orig w_rr q query_terms documents 0
  let ranked := assignNewRanks (sortDesc (·.combined_score) results) 0
  match top_k with
  | some k => if k = 0 then ranked else ranked.take k
  | none => ranked

/-- Per-document result construction of the model path of `rerank`
(reranker.py:127-149), with the cross-encoder scores (external model,
possibly via the cache) aligned positionally. -/
def mkRerank (combine_method : String) (w_orig w_rr : ℚ) :
    List (RDoc × ℚ) → Nat → List RerankResult
  | [], _ => []
  | (doc, rs) :: rest, i =>
    { chunk_id := doc.chunk_id.getD (toString i),
      content := doc.content,
      metadata := doc.metadata,
      original_score := doc.score,
      rerank_score := rs,
      combined_score := combine_scores combine_method w_orig w_rr doc.score rs,
      original_rank := i + 1,
      new_rank := 0 }
      :: mkRerank combine_method w_orig w_rr rest (i + 1)

/-- Ordering phase of `AdvancedReranker.rerank` (reranker.py:126-164): build
results from the per-document rerank scores, stable-sort descending by
`combined_score`, assign `new_rank`, truncate when `top_k` is truthy and
`return_all` is false. -/
def rerank_order (combine_method : String) (w_orig w_rr : ℚ)
    (documents : List RDoc) (rerank_scores : List ℚ) (top_k : Option Nat)
    (return_all : Bool) : List RerankResult :=
  let results := mkRerank combine_method w_orig w_rr
    (documents.zip rerank_scores) 0
  let ranked := assignNewRanks (sortDesc (·.combined_score) results) 0
  match top_k, return_all with
  | some k, false => if k = 0 then ranked else ranked.take k
  | _, _ => ranked

/-- `self.max_cache_size = 1000` (reranker.py:46). -/
def max_cache_size : Nat := 1000

/-- `int(self.max_cache_size * 0.2) = int(1000 * 0.2) = 200`
(reranker.py:279, evaluated on the concrete constant). -/
def evict_count : Nat := 200

/-- `AdvancedReranker._update_cache` (reranker.py:275-283): when the cache has
reached `max_size` entries, delete the oldest `evict` keys in insertion
(FIFO) order, then store the new entry (deleting the first `evict` keys of an
insertion-ordered dict with distinct keys is exactly `List.drop evict`). -/
def update_cache (max_size evict : Nat) (cache : List (String × ℚ))
    (key : String) (score : ℚ) : List (String × ℚ) :=
  let cache := if max_size ≤ cache.length then cache.drop evict else cache
  dictSet cache key score

end Reranker

/-! ### Lemmas: stable descending sort -/

theorem insertDesc_perm {α : Type} (key : α → ℚ) (x : α) (l : List α) :
    (insertDesc key x l).Perm (x :: l) := by
  induction l with
  | nil => simp [insertDesc]
  | cons y ys ih =>
    by_cases h : key y ≤ key x
    · simp [insertDesc, h]
    · simp only [insertDesc, if_neg h]
      exact ((ih.cons y).trans (List.Perm.swap x y ys))

theorem sortDesc_perm {α : Type} (key : α → ℚ) (l : List α) :
    (sortDesc key l).Perm l := by
  induction l with
  | nil => simp [sortDesc]
  | cons x xs ih =>
    exact (insertDesc_perm key x (sortDesc key xs)).trans (ih.cons x)

theorem mem_sortDesc {α : Type} {key : α → ℚ} {l : List α} {a : α} :
    a ∈ sortDesc key l ↔ a ∈ l :=
  (sortDesc_perm key l).mem_iff

theorem length_sortDesc {α : Type} (key : α → ℚ) (l : List α) :
    (sortDesc key l).length = l.length :=
  (sortDesc_perm key l).length_eq

/-- Inserting below preserves pairwise order with stable tie-breaking:
`R a b` means `a` may come before `b` in a stably-descending-sorted list. -/
theorem insertDesc_pairwise {α : Type} {key : α → ℚ} {P : α → α → Prop}
    {x : α} {ys : List α}
    (hys : ys.Pairwise (fun a b => key b < key a ∨ (key b = key a ∧ P a b)))
    (hx : ∀ y ∈ ys, P x y) :
    (insertDesc key x ys).Pairwise
      (fun a b => key b < key a ∨ (key b = key a ∧ P a b)) := by
  induction ys with
  | nil => simp [insertDesc]
  | cons y ys ih =>
    rcases List.pairwise_cons.mp hys with ⟨hy, hys'⟩
    by_cases h : key y ≤ key x
    · simp only [insertDesc, if_pos h]
      refine List.pairwise_cons.mpr ⟨?_, hys⟩
      intro z hz
      rcases List.mem_cons.mp hz with hz | hz
      · subst hz
        rcases lt_or_eq_of_le h with h₂ | h₂
        · exact Or.inl h₂
        · exact Or.inr ⟨h₂, hx z (List.mem_cons_self z ys)⟩
      · rcases hy z hz with h₂ | ⟨h₂, _⟩
        · exact Or.inl (lt_of_lt_of_le h₂ h)
        · rcases lt_or_eq_of_le h with h₃ | h₃
          · exact Or.inl (by rw [h₂]; exact h₃)
          · exact Or.inr ⟨h₂.trans h₃, hx z (List.mem_cons_of_mem y hz)⟩
    · simp only [insertDesc, if_neg h]
      refine List.pairwise_cons.mpr ⟨?_, ih hys' (fun z hz => hx z (List.mem_cons_of_mem y hz))⟩
      intro z hz
      rcases List.mem_cons.mp ((insertDesc_perm key x ys).mem_iff.mp hz) with hz | hz
      · subst hz
        exact Or.inl (not_le.mp h)
      · exact hy z hz

/-- Stability of `sortDesc`: if `P` orders the input (e.g. increasing original
position), the sorted output is pairwise ordered by key descending with ties
ordered by `P`. -/
theorem sortDesc_pairwise {α : Type} {key : α → ℚ} {P : α → α → Prop}
    {l : List α} (hl : l.Pairwise P) :
    (sortDesc key l).Pairwise
      (fun a b => key b < key a ∨ (key b = key a ∧ P a b)) := by
  induction l with
  | nil => simp [sortDesc]
  | cons x xs ih =>
    rcases List.pairwise_cons.mp hl with ⟨hx, hxs⟩
    exact insertDesc_pairwise (ih hxs)
      (fun y hy => hx y (mem_sortDesc.mp hy))

/-- Weak form: the sorted output has non-increasing keys. -/
theorem sortDesc_sorted {α : Type} (key : α → ℚ) (l : List α) :
    (sortDesc key l).Pairwise (fun a b => key b ≤ key a) := by
  have h := @sortDesc_pairwise α key (fun _ _ => True) l
    (List.pairwise_iff_forall_sublist.mpr (fun _ => trivial))
  exact h.imp (fun hab => by
    rcases hab with h₁ | ⟨h₁, _⟩
    · exact le_of_lt h₁
    · exact le_of_eq h₁)

/-! ### Lemmas: insertion-ordered dicts -/

theorem lookupD_append {β : Type} (k : String) (d e : List (String × β)) :
    lookupD k (d ++ e) =
      match lookupD k d with
      | some v => some v
      | none => lookupD k e := by
  induction d with
  | nil => simp [lookupD]
  | cons p rest ih =>
    by_cases h : p.1 = k
    · simp [lookupD, h]
    · simpa [lookupD, h] using ih

theorem lookupD_dictSet_self {β : Type} (d : List (String × β)) (k : String) (v : β) :
    lookupD k (dictSet d k v) = some v := by
  induction d with
  | nil => simp [dictSet, lookupD]
  | cons p rest ih =>
    by_cases h : p.1 = k
    · simp [dictSet, lookupD, h]
    · simp [dictSet, lookupD, h, ih]

theorem lookupD_dictAdd (d : List (String × ℚ)) (k c : String) (v : ℚ)
    (h : (lookupD k d).isSome) :
    lookupQ (dictAdd d k v) c = lookupQ d c + if k = c then v else 0 := by
  induction d with
  | nil => simp [lookupD] at h
  | cons p rest ih =>
    by_cases hpk : p.1 = k
    · by_cases hpc : p.1 = c
      · subst hpk; subst hpc
        simp [dictAdd, lookupQ, lookupD]
      · have hkc : ¬ k = c := fun hh => hpc (hh ▸ hpk)
        simp [dictAdd, lookupQ, lookupD, hpk, hpc, hkc]
    · have h' : (lookupD k rest).isSome := by
        simpa [lookupD, hpk] using h
      by_cases hpc : p.1 = c
      · have hkc : ¬ k = c := fun hh => hpk (hpc.trans hh.symm)
        have hck : ¬ c = k := fun hh => hkc hh.symm
        simp [dictAdd, lookupQ, lookupD, hpk, hpc, hkc, hck]
      · have := ih h'
        simpa [dictAdd, lookupQ, lookupD, hpk, hpc] using this

theorem lookupQ_append_single (d : List (String × ℚ)) (k c : String) (v : ℚ)
    (h : lookupD k d = none) :
    lookupQ (d ++ [(k, v)]) c = lookupQ d c + if k = c then v else 0 := by
  rw [lookupQ, lookupD_append]
  cases hc : lookupD c d with
  | some w =>
    have hkc : ¬ k = c := fun hh => by
      subst hh; rw [h] at hc; exact Option.noConfusion hc
    simp [lookupQ, hc, hkc]
  | none =>
    by_cases hkc : k = c
    · subst hkc; simp [lookupQ, lookupD, hc]
    · simp [lookupQ, lookupD, hc, hkc]

theorem lookupD_isSome_append {β : Type} (k : String) (d e : List (String × β)) :
    ((lookupD k (d ++ e)).isSome) ↔ (lookupD k d).isSome ∨ (lookupD k e).isSome := by
  rw [lookupD_append]
  cases lookupD k d <;> simp

theorem lookupD_mem_isSome {β : Type} {d : List (String × β)} {k : String} {v : β}
    (h : (k, v) ∈ d) : (lookupD k d).isSome := by
  induction d with
  | nil => simp at h
  | cons p rest ih =>
    rcases List.mem_cons.mp h with h | h
    · subst h; simp [lookupD]
    · by_cases hpk : p.1 = k
      · simp [lookupD, hpk]
      · simpa [lookupD, hpk] using ih h

theorem lookupD_eq_of_mem_nodup {β : Type} {d : List (String × β)} {k : String} {v : β}
    (hnd : (d.map Prod.fst).Nodup) (h : (k, v) ∈ d) : lookupD k d = some v := by
  induction d with
  | nil => simp at h
  | cons p rest ih =>
    simp only [List.map_cons, List.nodup_cons] at hnd
    rcases List.mem_cons.mp h with h | h
    · subst h; simp [lookupD]
    · have hpk : ¬ p.1 = k := by
        intro hh
        exact hnd.1 (hh ▸ (List.mem_map.mpr ⟨(k, v), h, rfl⟩))
      simpa [lookupD, hpk] using ih hnd.2 h

theorem lookupD_none_iff {β : Type} {d : List (String × β)} {k : String} :
    lookupD k d = none ↔ k ∉ d.map Prod.fst := by
  induction d with
  | nil => simp [lookupD]
  | cons p rest ih =>
    by_cases hpk : p.1 = k
    · subst hpk; simp [lookupD]
    · have hstep : lookupD k (p :: rest) = lookupD k rest := by
        simp [lookupD, hpk]
      rw [hstep, ih, List.map_cons, List.mem_cons]
      constructor
      · intro hnot hor
        rcases hor with hor | hor
        · exact hpk hor.symm
        · exact hnot hor
      · intro hnot hin
        exact hnot (Or.inr hin)

theorem dictAdd_keys (d : List (String × ℚ)) (k : String) (v : ℚ) :
    (dictAdd d k v).map Prod.fst = d.map Prod.fst := by
  induction d with
  | nil => simp [dictAdd]
  | cons p rest ih =>
    by_cases hpk : p.1 = k
    · simp [dictAdd, hpk]
    · simp [dictAdd, hpk, ih]

/-! ### Generic lemmas about the RRF accumulation loops -/

/-- Generic form of the RRF/weighted accumulation loop over one list, with the
per-occurrence contribution `wOf` depending on the enumerate counter and the
result. -/
def rrfRun {α : Type} (idOf : α → String) (wOf : Nat → α → ℚ) :
    RRFState α → List α → Nat → RRFState α
  | st, [], _ => st
  | st, r :: rs, n => rrfRun idOf wOf (rrfStep idOf (wOf n r) st r) rs (n + 1)

/-- Total contribution of one list to the fused score of id `c`. -/
def rrfContrib {α : Type} (idOf : α → String) (wOf : Nat → α → ℚ) (c : String) :
    List α → Nat → ℚ
  | [], _ => 0
  | r :: rs, n =>
    (if idOf r = c then wOf n r else 0) + rrfContrib idOf wOf c rs (n + 1)

theorem rrfStep_fused_lookupQ {α : Type} (idOf : α → String) (w : ℚ)
    (st : RRFState α) (r : α) (c : String) :
    lookupQ (rrfStep idOf w st r).fused c
      = lookupQ st.fused c + if idOf r = c then w else 0 := by
  unfold rrfStep
  by_cases h : (lookupD (idOf r) st.fused).isSome
  · simp only [if_pos h]
    exact lookupD_dictAdd _ _ _ _ h
  · simp only [if_neg h]
    have hnone : lookupD (idOf r) st.fused = none := by
      cases hh : lookupD (idOf r) st.fused with
      | none => rfl
      | some v => exact absurd (by simp [hh]) h
    exact lookupQ_append_single _ _ _ _ hnone

theorem rrfRun_fused_lookupQ {α : Type} (idOf : α → String) (wOf : Nat → α → ℚ)
    (lst : List α) (st : RRFState α) (n : Nat) (c : String) :
    lookupQ (rrfRun idOf wOf st lst n).fused c
      = lookupQ st.fused c + rrfContrib idOf wOf c lst n := by
  induction lst generalizing st n with
  | nil => simp [rrfRun, rrfContrib]
  | cons r rs ih =>
    rw [rrfRun, rrfContrib, ih, rrfStep_fused_lookupQ]
    ring

theorem lookupD_isSome_iff_mem {β : Type} {d : List (String × β)} {k : String} :
    (lookupD k d).isSome ↔ k ∈ d.map Prod.fst := by
  rw [Option.isSome_iff_ne_none, ne_eq, lookupD_none_iff, not_not]

theorem rrfStep_fused_isSome {α : Type} (idOf : α → String) (w : ℚ)
    (st : RRFState α) (r : α) (c : String) :
    (lookupD c (rrfStep idOf w st r).fused).isSome
      ↔ (lookupD c st.fused).isSome ∨ idOf r = c := by
  unfold rrfStep
  by_cases h : (lookupD (idOf r) st.fused).isSome
  · simp only [if_pos h]
    rw [lookupD_isSome_iff_mem, dictAdd_keys, ← lookupD_isSome_iff_mem]
    constructor
    · exact Or.inl
    · rintro (hh | hh)
      · exact hh
      · exact hh ▸ h
  · simp only [if_neg h]
    rw [lookupD_isSome_append]
    by_cases hc : idOf r = c
    · simp [lookupD, hc]
    · simp [lookupD, hc]

theorem rrfRun_fused_isSome {α : Type} (idOf : α → String) (wOf : Nat → α → ℚ)
    (lst : List α) (st : RRFState α) (n : Nat) (c : String) :
    (lookupD c (rrfRun idOf wOf st lst n).fused).isSome
      ↔ (lookupD c st.fused).isSome ∨ c ∈ lst.map idOf := by
  induction lst generalizing st n with
  | nil => simp [rrfRun]
  | cons r rs ih =>
    rw [rrfRun, ih, rrfStep_fused_isSome]
    constructor
    · rintro ((hh | hh) | hh)
      · exact Or.inl hh
      · exact Or.inr (by simp [hh])
      · exact Or.inr (by simp [hh])
    · rintro (hh | hh)
      · exact Or.inl (Or.inl hh)
      · rw [List.map_cons] at hh
        rcases List.mem_cons.mp hh with hh | hh
        · exact Or.inl (Or.inr hh.symm)
        · exact Or.inr hh

theorem rrfStep_fused_keys_nodup {α : Type} (idOf : α → String) (w : ℚ)
    (st : RRFState α) (r : α) (hnd : (st.fused.map Prod.fst).Nodup) :
    ((rrfStep idOf w st r).fused.map Prod.fst).Nodup := by
  unfold rrfStep
  by_cases h : (lookupD (idOf r) st.fused).isSome
  · simp only [if_pos h]
    rwa [dictAdd_keys]
  · simp only [if_neg h]
    have hnotmem : idOf r ∉ st.fused.map Prod.fst := by
      rw [← lookupD_isSome_iff_mem]
      simpa using h
    rw [List.map_append]
    simp [List.nodup_append, hnd, hnotmem]

theorem rrfRun_fused_keys_nodup {α : Type} (idOf : α → String) (wOf : Nat → α → ℚ)
    (lst : List α) (st : RRFState α) (n : Nat)
    (hnd : (st.fused.map Prod.fst).Nodup) :
    ((rrfRun idOf wOf st lst n).fused.map Prod.fst).Nodup := by
  induction lst generalizing st n with
  | nil => simpa [rrfRun] using hnd
  | cons r rs ih => exact ih _ _ (rrfStep_fused_keys_nodup idOf _ st r hnd)

/-- The keys of `fused_scores` and `all_results` agree. -/
def RRFState.goodKeys {α : Type} (st : RRFState α) : Prop :=
  ∀ c, (lookupD c st.fused).isSome ↔ (lookupD c st.all).isSome

/-- Every stored first occurrence is stored under its own id. -/
def RRFState.idConsistent {α : Type} (idOf : α → String) (st : RRFState α) : Prop :=
  ∀ c v, lookupD c st.all = some v → idOf v = c

theorem rrfStep_goodKeys {α : Type} (idOf : α → String) (w : ℚ)
    (st : RRFState α) (r : α) (hg : st.goodKeys) :
    (rrfStep idOf w st r).goodKeys := by
  intro c
  unfold rrfStep
  by_cases h : (lookupD (idOf r) st.fused).isSome
  · simp only [if_pos h]
    rw [lookupD_isSome_iff_mem, dictAdd_keys, ← lookupD_isSome_iff_mem]
    exact hg c
  · simp only [if_neg h]
    rw [lookupD_isSome_append, lookupD_isSome_append]
    by_cases hc : idOf r = c <;> simp [lookupD, hc, hg c]

theorem rrfStep_idConsistent {α : Type} (idOf : α → String) (w : ℚ)
    (st : RRFState α) (r : α) (hic : st.idConsistent idOf) :
    (rrfStep idOf w st r).idConsistent idOf := by
  intro c v hv
  unfold rrfStep at hv
  by_cases h : (lookupD (idOf r) st.fused).isSome
  · rw [if_pos h] at hv
    exact hic c v hv
  · rw [if_neg h] at hv
    simp only at hv
    rw [lookupD_append] at hv
    cases hx : lookupD c st.all with
    | some w' =>
      rw [hx] at hv
      exact hic c v (hx.trans hv)
    | none =>
      rw [hx] at hv
      by_cases hc : idOf r = c
      · simp only [lookupD, if_pos hc] at hv
        rw [← Option.some_inj.mp hv]
        exact hc
      · simp [lookupD, hc] at hv

theorem rrfStep_all_lookup {α : Type} (idOf : α → String) (w : ℚ)
    (st : RRFState α) (r : α) (c : String) (hg : st.goodKeys) :
    lookupD c (rrfStep idOf w st r).all
      = match lookupD c st.all with
        | some v => some v
        | none => if idOf r = c then some r else none := by
  unfold rrfStep
  by_cases h : (lookupD (idOf r) st.fused).isSome
  · simp only [if_pos h]
    cases hx : lookupD c st.all with
    | some v => simp
    | none =>
      by_cases hc : idOf r = c
      · exfalso
        rw [hc] at h
        have := (hg c).mp h
        rw [hx] at this
        simp at this
      · simp [hc]
  · simp only [if_neg h]
    rw [lookupD_append]
    cases hx : lookupD c st.all with
    | some v => simp
    | none => simp [lookupD]

theorem rrfRun_goodKeys {α : Type} (idOf : α → String) (wOf : Nat → α → ℚ)
    (lst : List α) (st : RRFState α) (n : Nat) (hg : st.goodKeys) :
    (rrfRun idOf wOf st lst n).goodKeys := by
  induction lst generalizing st n with
  | nil => simpa [rrfRun] using hg
  | cons r rs ih => exact ih _ _ (rrfStep_goodKeys idOf _ st r hg)

theorem rrfRun_idConsistent {α : Type} (idOf : α → String) (wOf : Nat → α → ℚ)
    (lst : List α) (st : RRFState α) (n : Nat) (hic : st.idConsistent idOf) :
    (rrfRun idOf wOf st lst n).idConsistent idOf := by
  induction lst generalizing st n with
  | nil => simpa [rrfRun] using hic
  | cons r rs ih => exact ih _ _ (rrfStep_idConsistent idOf _ st r hic)

theorem rrfRun_all_lookup {α : Type} (idOf : α → String) (wOf : Nat → α → ℚ)
    (lst : List α) (st : RRFState α) (n : Nat) (c : String) (hg : st.goodKeys) :
    lookupD c (rrfRun idOf wOf st lst n).all
      = match lookupD c st.all with
        | some v => some v
        | none => lst.find? (fun r => decide (idOf r = c)) := by
  induction lst generalizing st n with
  | nil => cases hx : lookupD c st.all <;> simp [rrfRun, hx]
  | cons r rs ih =>
    rw [rrfRun, ih _ _ (rrfStep_goodKeys idOf _ st r hg),
      rrfStep_all_lookup idOf _ st r c hg]
    cases hx : lookupD c st.all with
    | some v => simp
    | none =>
      by_cases hc : idOf r = c
      · simp [hc, List.find?_cons_of_pos]
      · simp [hc, List.find?_cons_of_neg]

theorem foldl_rrfRun_fused_lookupQ {α : Type} (idOf : α → String)
    (wOf : Nat → α → ℚ) (lists : List (List α)) (st : RRFState α) (c : String) :
    lookupQ ((lists.foldl (fun st lst => rrfRun idOf wOf st lst 0) st).fused) c
      = lookupQ st.fused c
        + (lists.map (fun lst => rrfContrib idOf wOf c lst 0)).sum := by
  induction lists generalizing st with
  | nil => simp
  | cons l ls ih =>
    rw [List.foldl_cons, ih, rrfRun_fused_lookupQ]
    simp [add_assoc]

theorem foldl_rrfRun_goodKeys {α : Type} (idOf : α → String)
    (wOf : Nat → α → ℚ) (lists : List (List α)) (st : RRFState α)
    (hg : st.goodKeys) :
    (lists.foldl (fun st lst => rrfRun idOf wOf st lst 0) st).goodKeys := by
  induction lists generalizing st with
  | nil => simpa using hg
  | cons l ls ih => exact ih _ (rrfRun_goodKeys idOf wOf l st 0 hg)

theorem foldl_rrfRun_idConsistent {α : Type} (idOf : α → String)
    (wOf : Nat → α → ℚ) (lists : List (List α)) (st : RRFState α)
    (hic : st.idConsistent idOf) :
    (lists.foldl (fun st lst => rrfRun idOf wOf st lst 0) st).idConsistent idOf := by
  induction lists generalizing st with
  | nil => simpa using hic
  | cons l ls ih => exact ih _ (rrfRun_idConsistent idOf wOf l st 0 hic)

theorem foldl_rrfRun_fused_keys_nodup {α : Type} (idOf : α → String)
    (wOf : Nat → α → ℚ) (lists : List (List α)) (st : RRFState α)
    (hnd : (st.fused.map Prod.fst).Nodup) :
    (((lists.foldl (fun st lst => rrfRun idOf wOf st lst 0) st).fused).map
      Prod.fst).Nodup := by
  induction lists generalizing st with
  | nil => simpa using hnd
  | cons l ls ih => exact ih _ (rrfRun_fused_keys_nodup idOf wOf l st 0 hnd)

theorem foldl_rrfRun_all_lookup {α : Type} (idOf : α → String)
    (wOf : Nat → α → ℚ) (lists : List (List α)) (st : RRFState α) (c : String)
    (hg : st.goodKeys) :
    lookupD c ((lists.foldl (fun st lst => rrfRun idOf wOf st lst 0) st).all)
      = match lookupD c st.all with
        | some v => some v
        | none => lists.flatten.find? (fun r => decide (idOf r = c)) := by
  induction lists generalizing st with
  | nil => cases hx : lookupD c st.all <;> simp [hx]
  | cons l ls ih =>
    rw [List.foldl_cons, ih _ (rrfRun_goodKeys idOf wOf l st 0 hg),
      rrfRun_all_lookup idOf wOf l st 0 c hg]
    cases hx : lookupD c st.all with
    | some v => simp
    | none =>
      rw [List.flatten]
      cases hf : l.find? (fun r => decide (idOf r = c)) with
      | some v =>
        have : List.find? (fun r => decide (idOf r = c)) (l ++ ls.flatten) = some v := by
          rw [List.find?_append, hf]
          rfl
        simp [this]
      | none =>
        have : List.find? (fun r => decide (idOf r = c)) (l ++ ls.flatten)
            = ls.flatten.find? (fun r => decide (idOf r = c)) := by
          rw [List.find?_append, hf]
          rfl
        simp [this]

/-- 0-based position of the first occurrence of id `c` in a list. -/
def rankOf {α : Type} (idOf : α → String) (c : String) : List α → Option Nat
  | [] => none
  | r :: rs => if idOf r = c then some 0 else (rankOf idOf c rs).map (· + 1)

/-- The spec's RRF contribution of one ranked list to document id `c`:
`1 / (k_const + rank)` where `rank` is the 1-based rank of `c` within the
list, and `0` when `c` does not occur in the list. -/
def specRRFContribution {α : Type} (k : ℚ) (idOf : α → String) (lst : List α)
    (c : String) : ℚ :=
  match rankOf idOf c lst with
  | some i => 1 / (k + (i : ℚ) + 1)
  | none => 0

theorem rrfContrib_eq_zero {α : Type} (idOf : α → String) (wOf : Nat → α → ℚ)
    (c : String) (lst : List α) (n : Nat) (h : c ∉ lst.map idOf) :
    rrfContrib idOf wOf c lst n = 0 := by
  induction lst generalizing n with
  | nil => simp [rrfContrib]
  | cons r rs ih =>
    rw [List.map_cons] at h
    have h1 : ¬ idOf r = c := fun hh => h (by
      rw [← hh]; exact List.mem_cons_self _ _)
    have h2 : c ∉ rs.map idOf := fun hh => h (List.mem_cons_of_mem _ hh)
    rw [rrfContrib, if_neg h1, ih _ h2]
    simp

theorem rrfContrib_enum_spec {α : Type} (k : ℚ) (idOf : α → String) (c : String)
    (lst : List α) (n : Nat) (hnd : (lst.map idOf).Nodup) :
    rrfContrib idOf (fun m _ => 1 / (k + (m : ℚ) + 1)) c lst n
      = match rankOf idOf c lst with
        | some i => 1 / (k + ((n + i : Nat) : ℚ) + 1)
        | none => 0 := by
  induction lst generalizing n with
  | nil => simp [rrfContrib, rankOf]
  | cons r rs ih =>
    rw [List.map_cons, List.nodup_cons] at hnd
    by_cases hc : idOf r = c
    · have hnot : c ∉ rs.map idOf := hc ▸ hnd.1
      rw [rrfContrib, if_pos hc, rrfContrib_eq_zero _ _ _ _ _ hnot, rankOf,
        if_pos hc]
      simp
    · rw [rrfContrib, if_neg hc, ih (n + 1) hnd.2, rankOf, if_neg hc]
      cases hr : rankOf idOf c rs with
      | none => simp
      | some i =>
        simp only [Option.map_some]
        have harith : (n + 1 + i : Nat) = (n + (i + 1) : Nat) := by omega
        rw [harith]
        simp

/-- The ranks of a result list are the consecutive 1-based positions starting
at `n` (how `_vector_search` / `_keyword_search` produce them). -/
def ranksFrom : List SearchResult → Nat → Bool
  | [], _ => true
  | r :: rs, n => decide (r.rank = n) && ranksFrom rs (n + 1)

theorem rrfContrib_rankfield_spec (k : ℚ) (c : String) (lst : List SearchResult)
    (n m : Nat) (hnd : (lst.map (fun r => r.chunk_id)).Nodup)
    (hr : ranksFrom lst m = true) :
    rrfContrib (fun r => r.chunk_id) (fun _ r => 1 / (k + (r.rank : ℚ))) c lst n
      = match rankOf (fun r => r.chunk_id) c lst with
        | some i => 1 / (k + ((m + i : Nat) : ℚ))
        | none => 0 := by
  induction lst generalizing n m with
  | nil => simp [rrfContrib, rankOf]
  | cons r rs ih =>
    rw [List.map_cons, List.nodup_cons] at hnd
    rw [ranksFrom, Bool.and_eq_true] at hr
    have hrank : r.rank = m := of_decide_eq_true hr.1
    by_cases hc : r.chunk_id = c
    · have hnot : c ∉ rs.map (fun r => r.chunk_id) := hc ▸ hnd.1
      rw [rrfContrib, if_pos hc, rrfContrib_eq_zero _ _ _ _ _ hnot, rankOf,
        if_pos hc]
      simp [hrank]
    · rw [rrfContrib, if_neg hc, ih (n + 1) (m + 1) hnd.2 hr.2, rankOf,
        if_neg hc]
      cases hx : rankOf (fun r => r.chunk_id) c rs with
      | none => simp
      | some i =>
        simp only [Option.map_some]
        have harith : (m + 1 + i : Nat) = (m + (i + 1) : Nat) := by omega
        rw [harith]
        simp

theorem vectorStore_rrfList_eq (k : ℚ) (st : RRFState SearchDoc)
    (lst : List SearchDoc) (n : Nat) :
    VectorStore.rrfList k st lst n
      = rrfRun (fun r => r.chunk_id) (fun m _ => 1 / (k + (m : ℚ) + 1)) st lst n := by
  induction lst generalizing st n with
  | nil => rfl
  | cons r rs ih =>
    rw [VectorStore.rrfList, rrfRun, ih]

theorem hybrid_rrfList_eq (k : ℚ) (st : RRFState SearchResult)
    (lst : List SearchResult) (n : Nat) :
    HybridSearch.rrfList k st lst
      = rrfRun (fun r => r.chunk_id) (fun _ r => 1 / (k + (r.rank : ℚ))) st lst n := by
  induction lst generalizing st n with
  | nil => rfl
  | cons r rs ih =>
    rw [HybridSearch.rrfList, List.foldl_cons, rrfRun, ← ih _ (n + 1)]
    rfl

theorem init_goodKeys {α : Type} : (⟨[], []⟩ : RRFState α).goodKeys := by
  intro c
  simp [lookupD]

theorem init_idConsistent {α : Type} (idOf : α → String) :
    (⟨[], []⟩ : RRFState α).idConsistent idOf := by
  intro c v hv
  simp [lookupD] at hv

theorem lookupQ_of_mem_nodup {d : List (String × ℚ)} {cid : String} {s : ℚ}
    (hnd : (d.map Prod.fst).Nodup) (h : (cid, s) ∈ d) : lookupQ d cid = s := by
  rw [lookupQ, lookupD_eq_of_mem_nodup hnd h]
  rfl

theorem mem_buildFused {all : List (String × SearchResult)}
    {pairs : List (String × ℚ)} {n : Nat} {r : SearchResult}
    (h : r ∈ HybridSearch.buildFused all pairs n) :
    ∃ cs ∈ pairs, ∃ m : Nat,
      r = { ((lookupD cs.1 all).getD default) with
              score := cs.2, source := "hybrid", rank := m + 1 } := by
  induction pairs generalizing n with
  | nil => simp [HybridSearch.buildFused] at h
  | cons cs rest ih =>
    rw [HybridSearch.buildFused] at h
    rcases List.mem_cons.mp h with h | h
    · exact ⟨cs, List.mem_cons_self _ _, n, h⟩
    · rcases ih h with ⟨cs', hmem, m, hr⟩
      exact ⟨cs', List.mem_cons_of_mem _ hmem, m, hr⟩

theorem buildFused_pairwise {all : List (String × SearchResult)}
    {pairs : List (String × ℚ)} {n : Nat}
    (hp : pairs.Pairwise (fun p q => q.2 ≤ p.2)) :
    (HybridSearch.buildFused all pairs n).Pairwise
      (fun a b => b.score ≤ a.score) := by
  induction pairs generalizing n with
  | nil => simp [HybridSearch.buildFused]
  | cons cs rest ih =>
    rcases List.pairwise_cons.mp hp with ⟨hcs, hrest⟩
    rw [HybridSearch.buildFused]
    refine List.pairwise_cons.mpr ⟨?_, ih hrest⟩
    intro z hz
    rcases mem_buildFused hz with ⟨cs', hmem, m, hr⟩
    have : z.score = cs'.2 := by rw [hr]
    rw [this]
    exact hcs cs' hmem

theorem vector_rrf_spec_aux (lists : List (List SearchDoc)) (k : ℚ)
    (hnd : ∀ lst ∈ lists, (lst.map (fun r => r.chunk_id)).Nodup) :
    (∀ r ∈ VectorStore.reciprocal_rank_fusion lists k,
        r.score = (lists.map (fun lst =>
          specRRFContribution k (fun x => x.chunk_id) lst r.chunk_id)).sum)
    ∧ (VectorStore.reciprocal_rank_fusion lists k).Pairwise
        (fun a b => b.score ≤ a.score) := by
  classical
  set wOf : Nat → SearchDoc → ℚ := fun m _ => 1 / (k + (m : ℚ) + 1) with hwOf
  set F := lists.foldl (fun st lst => VectorStore.rrfList k st lst 0)
    (⟨[], []⟩ : RRFState SearchDoc) with hF
  have hFr : F = lists.foldl
      (fun st lst => rrfRun (fun r => r.chunk_id) wOf st lst 0) ⟨[], []⟩ := by
    rw [hF]
    congr 1
    funext st lst
    exact vectorStore_rrfList_eq k st lst 0
  have hdef : VectorStore.reciprocal_rank_fusion lists k
      = sortDesc (fun r => r.rrf_score) (F.fused.map (fun cs =>
          { ((lookupD cs.1 F.all).getD default) with
              rrf_score := cs.2, score := cs.2 })) := rfl
  have hgood : F.goodKeys := by
    rw [hFr]; exact foldl_rrfRun_goodKeys _ _ _ _ init_goodKeys
  have hic : F.idConsistent (fun r => r.chunk_id) := by
    rw [hFr]; exact foldl_rrfRun_idConsistent _ _ _ _ (init_idConsistent _)
  have hknd : (F.fused.map Prod.fst).Nodup := by
    rw [hFr]
    exact foldl_rrfRun_fused_keys_nodup _ _ _ _ (by simp)
  have hscore_eq : ∀ x ∈ F.fused.map (fun cs =>
      { ((lookupD cs.1 F.all).getD default) with
          rrf_score := cs.2, score := cs.2 }), x.score = x.rrf_score := by
    intro x hx
    rcases List.mem_map.mp hx with ⟨cs, _, hfx⟩
    rw [← hfx]
  constructor
  · intro r hr
    rw [hdef] at hr
    rcases List.mem_map.mp (mem_sortDesc.mp hr) with ⟨cs, hcs, hf⟩
    obtain ⟨cid, s⟩ := cs
    have hsome : (lookupD cid F.fused).isSome := lookupD_mem_isSome hcs
    obtain ⟨v, hv⟩ := Option.isSome_iff_exists.mp ((hgood cid).mp hsome)
    have hvid : v.chunk_id = cid := hic cid v hv
    have hscore : r.score = s := by rw [← hf]
    have hchunk : r.chunk_id = cid := by
      rw [← hf]
      show ((lookupD cid F.all).getD default).chunk_id = cid
      rw [hv]
      exact hvid
    have hs : s = lookupQ F.fused cid := (lookupQ_of_mem_nodup hknd hcs).symm
    have hsum : lookupQ F.fused cid
        = (lists.map (fun lst =>
            rrfContrib (fun r => r.chunk_id) wOf cid lst 0)).sum := by
      rw [hFr, foldl_rrfRun_fused_lookupQ]
      simp [lookupQ, lookupD]
    have hmapeq : lists.map (fun lst =>
          rrfContrib (fun r => r.chunk_id) wOf cid lst 0)
        = lists.map (fun lst =>
            specRRFContribution k (fun x => x.chunk_id) lst cid) := by
      apply List.map_congr_left
      intro lst hlst
      rw [hwOf, rrfContrib_enum_spec k _ cid lst 0 (hnd lst hlst)]
      unfold specRRFContribution
      cases rankOf (fun x => x.chunk_id) cid lst with
      | none => rfl
      | some i => simp
    rw [hscore, hs, hsum, hmapeq, hchunk]
  · rw [hdef]
    have hsorted := sortDesc_sorted (fun r : SearchDoc => r.rrf_score)
      (F.fused.map (fun cs =>
        { ((lookupD cs.1 F.all).getD default) with
            rrf_score := cs.2, score := cs.2 }))
    refine hsorted.imp_of_mem ?_
    intro a b ha hb hab
    rw [hscore_eq a (mem_sortDesc.mp ha), hscore_eq b (mem_sortDesc.mp hb)]
    exact hab

theorem hybrid_rrf_spec_aux (lists : List (List SearchResult)) (k : ℚ)
    (hnd : ∀ lst ∈ lists, (lst.map (fun r => r.chunk_id)).Nodup)
    (hrk : ∀ lst ∈ lists, ranksFrom lst 1 = true) :
    (∀ r ∈ HybridSearch.reciprocal_rank_fusion lists k,
        r.score = (lists.map (fun lst =>
          specRRFContribution k (fun x => x.chunk_id) lst r.chunk_id)).sum)
    ∧ (HybridSearch.reciprocal_rank_fusion lists k).Pairwise
        (fun a b => b.score ≤ a.score) := by
  classical
  set wOf : Nat → SearchResult → ℚ := fun _ r => 1 / (k + (r.rank : ℚ)) with hwOf
  set F := lists.foldl (HybridSearch.rrfList k)
    (⟨[], []⟩ : RRFState SearchResult) with hF
  have hFr : F = lists.foldl
      (fun st lst => rrfRun (fun r => r.chunk_id) wOf st lst 0) ⟨[], []⟩ := by
    rw [hF]
    congr 1
    funext st lst
    exact hybrid_rrfList_eq k st lst 0
  have hdef : HybridSearch.reciprocal_rank_fusion lists k
      = HybridSearch.buildFused F.all (sortDesc (fun p => p.2) F.fused) 0 := rfl
  have hgood : F.goodKeys := by
    rw [hFr]; exact foldl_rrfRun_goodKeys _ _ _ _ init_goodKeys
  have hic : F.idConsistent (fun r => r.chunk_id) := by
    rw [hFr]; exact foldl_rrfRun_idConsistent _ _ _ _ (init_idConsistent _)
  have hknd : (F.fused.map Prod.fst).Nodup := by
    rw [hFr]
    exact foldl_rrfRun_fused_keys_nodup _ _ _ _ (by simp)
  constructor
  · intro r hr
    rw [hdef] at hr
    rcases mem_buildFused hr with ⟨cs, hcs, m, hrdef⟩
    obtain ⟨cid, s⟩ := cs
    have hcs' : (cid, s) ∈ F.fused := mem_sortDesc.mp hcs
    have hsome : (lookupD cid F.fused).isSome := lookupD_mem_isSome hcs'
    obtain ⟨v, hv⟩ := Option.isSome_iff_exists.mp ((hgood cid).mp hsome)
    have hvid : v.chunk_id = cid := hic cid v hv
    have hscore : r.score = s := by rw [hrdef]
    have hchunk : r.chunk_id = cid := by
      rw [hrdef]
      show ((lookupD cid F.all).getD default).chunk_id = cid
      rw [hv]
      exact hvid
    have hs : s = lookupQ F.fused cid := (lookupQ_of_mem_nodup hknd hcs').symm
    have hsum : lookupQ F.fused cid
        = (lists.map (fun lst =>
            rrfContrib (fun r => r.chunk_id) wOf cid lst 0)).sum := by
      rw [hFr, foldl_rrfRun_fused_lookupQ]
      simp [lookupQ, lookupD]
    have hmapeq : lists.map (fun lst =>
          rrfContrib (fun r => r.chunk_id) wOf cid lst 0)
        = lists.map (fun lst =>
            specRRFContribution k (fun x => x.chunk_id) lst cid) := by
      apply List.map_congr_left
      intro lst hlst
      rw [hwOf, rrfContrib_rankfield_spec k cid lst 0 1 (hnd lst hlst) (hrk lst hlst)]
      unfold specRRFContribution
      cases rankOf (fun x => x.chunk_id) cid lst with
      | none => rfl
      | some i =>
        show (1 : ℚ) / (k + ((1 + i : Nat) : ℚ)) = 1 / (k + (i : ℚ) + 1)
        push_cast
        ring_nf
    rw [hscore, hs, hsum, hmapeq, hchunk]
  · rw [hdef]
    exact buildFused_pairwise (sortDesc_sorted (fun p => p.2) F.fused)

theorem hybrid_rrf_first_occ_aux (lists : List (List SearchResult)) (k : ℚ) :
    ∀ r ∈ HybridSearch.reciprocal_rank_fusion lists k,
      ∃ r₀, lists.flatten.find? (fun x => decide (x.chunk_id = r.chunk_id)) = some r₀
        ∧ r.chunk_id = r₀.chunk_id ∧ r.content = r₀.content
        ∧ r.metadata = r₀.metadata ∧ r.match_details = r₀.match_details
        ∧ r.source = "hybrid" := by
  classical
  set wOf : Nat → SearchResult → ℚ := fun _ r => 1 / (k + (r.rank : ℚ)) with hwOf
  set F := lists.foldl (HybridSearch.rrfList k)
    (⟨[], []⟩ : RRFState SearchResult) with hF
  have hFr : F = lists.foldl
      (fun st lst => rrfRun (fun r => r.chunk_id) wOf st lst 0) ⟨[], []⟩ := by
    rw [hF]
    congr 1
    funext st lst
    exact hybrid_rrfList_eq k st lst 0
  have hdef : HybridSearch.reciprocal_rank_fusion lists k
      = HybridSearch.buildFused F.all (sortDesc (fun p => p.2) F.fused) 0 := rfl
  have hgood : F.goodKeys := by
    rw [hFr]; exact foldl_rrfRun_goodKeys _ _ _ _ init_goodKeys
  have hic : F.idConsistent (fun r => r.chunk_id) := by
    rw [hFr]; exact foldl_rrfRun_idConsistent _ _ _ _ (init_idConsistent _)
  intro r hr
  rw [hdef] at hr
  rcases mem_buildFused hr with ⟨cs, hcs, m, hrdef⟩
  obtain ⟨cid, s⟩ := cs
  have hcs' : (cid, s) ∈ F.fused := mem_sortDesc.mp hcs
  have hsome : (lookupD cid F.fused).isSome := lookupD_mem_isSome hcs'
  obtain ⟨v, hv⟩ := Option.isSome_iff_exists.mp ((hgood cid).mp hsome)
  have hvid : v.chunk_id = cid := hic cid v hv
  have hfind : lists.flatten.find? (fun x => decide (x.chunk_id = cid)) = some v := by
    have := foldl_rrfRun_all_lookup (fun r : SearchResult => r.chunk_id) wOf lists
      ⟨[], []⟩ cid init_goodKeys
    rw [← hFr] at this
    rw [hv] at this
    simp only [lookupD] at this
    exact this.symm
  have hchunk : r.chunk_id = cid := by
    rw [hrdef]
    show ((lookupD cid F.all).getD default).chunk_id = cid
    rw [hv]
    exact hvid
  refine ⟨v, ?_, ?_, ?_, ?_, ?_, ?_⟩
  · rw [hchunk]
    exact hfind
  · rw [hchunk, hvid]
  · rw [hrdef]
    show ((lookupD cid F.all).getD default).content = v.content
    rw [hv]
    rfl
  · rw [hrdef]
    show ((lookupD cid F.all).getD default).metadata = v.metadata
    rw [hv]
    rfl
  · rw [hrdef]
    show ((lookupD cid F.all).getD default).match_details = v.match_details
    rw [hv]
    rfl
  · rw [hrdef]

theorem vector_rrf_first_occ_aux (lists : List (List SearchDoc)) (k : ℚ) :
    ∀ r ∈ VectorStore.reciprocal_rank_fusion lists k,
      ∃ r₀, lists.flatten.find? (fun x => decide (x.chunk_id = r.chunk_id)) = some r₀
        ∧ r.chunk_id = r₀.chunk_id ∧ r.content = r₀.content
        ∧ r.metadata = r₀.metadata ∧ r.rank = r₀.rank
        ∧ r.match_count = r₀.match_count ∧ r.score = r.rrf_score := by
  classical
  set wOf : Nat → SearchDoc → ℚ := fun m _ => 1 / (k + (m : ℚ) + 1) with hwOf
  set F := lists.foldl (fun st lst => VectorStore.rrfList k st lst 0)
    (⟨[], []⟩ : RRFState SearchDoc) with hF
  have hFr : F = lists.foldl
      (fun st lst => rrfRun (fun r => r.chunk_id) wOf st lst 0) ⟨[], []⟩ := by
    rw [hF]
    congr 1
    funext st lst
    exact vectorStore_rrfList_eq k st lst 0
  have hdef : VectorStore.reciprocal_rank_fusion lists k
      = sortDesc (fun r => r.rrf_score) (F.fused.map (fun cs =>
          { ((lookupD cs.1 F.all).getD default) with
              rrf_score := cs.2, score := cs.2 })) := rfl
  have hgood : F.goodKeys := by
    rw [hFr]; exact foldl_rrfRun_goodKeys _ _ _ _ init_goodKeys
  have hic : F.idConsistent (fun r => r.chunk_id) := by
    rw [hFr]; exact foldl_rrfRun_idConsistent _ _ _ _ (init_idConsistent _)
  intro r hr
  rw [hdef] at hr
  rcases List.mem_map.mp (mem_sortDesc.mp hr) with ⟨cs, hcs, hf⟩
  obtain ⟨cid, s⟩ := cs
  have hsome : (lookupD cid F.fused).isSome := lookupD_mem_isSome hcs
  obtain ⟨v, hv⟩ := Option.isSome_iff_exists.mp ((hgood cid).mp hsome)
  have hvid : v.chunk_id = cid := hic cid v hv
  have hfind : lists.flatten.find? (fun x => decide (x.chunk_id = cid)) = some v := by
    have := foldl_rrfRun_all_lookup (fun r : SearchDoc => r.chunk_id) wOf lists
      ⟨[], []⟩ cid init_goodKeys
    rw [← hFr] at this
    rw [hv] at this
    simp only [lookupD] at this
    exact this.symm
  have hchunk : r.chunk_id = cid := by
    rw [← hf]
    show ((lookupD cid F.all).getD default).chunk_id = cid
    rw [hv]
    exact hvid
  refine ⟨v, ?_, ?_, ?_, ?_, ?_, ?_, ?_⟩
  · rw [hchunk]
    exact hfind
  · rw [hchunk, hvid]
  · rw [← hf]
    show ((lookupD cid F.all).getD default).content = v.content
    rw [hv]
    rfl
  · rw [← hf]
    show ((lookupD cid F.all).getD default).metadata = v.metadata
    rw [hv]
    rfl
  · rw [← hf]
    show ((lookupD cid F.all).getD default).rank = v.rank
    rw [hv]
    rfl
  · rw [← hf]
    show ((lookupD cid F.all).getD default).match_count = v.match_count
    rw [hv]
    rfl
  · rw [← hf]

/-! ### Claim C2 -/

/-- **C2**: in both reciprocal-rank-fusion implementations
(`VectorStore._reciprocal_rank_fusion` and
`HybridSearchEngine._reciprocal_rank_fusion`, with the default
`k_const = 60`), every fused result's score is the sum, over the input lists
that contain its chunk id, of `1 / (60 + rank)` with `rank` the 1-based rank
of the id in that list; the fused output is sorted in descending order of
that summed score.  (Each input list is assumed to rank distinct chunk ids;
for the hybrid engine's variant, which reads the contribution off the stored
`rank` field, the ranks are the 1-based positions, which is how
`_vector_search` and `_keyword_search` produce them.) -/
theorem C2_reciprocal_rank_fusion_formula
    (listsV : List (List SearchDoc)) (listsH : List (List SearchResult))
    (hndV : ∀ lst ∈ listsV, (lst.map (fun r => r.chunk_id)).Nodup)
    (hndH : ∀ lst ∈ listsH, (lst.map (fun r => r.chunk_id)).Nodup)
    (hrkH : ∀ lst ∈ listsH, ranksFrom lst 1 = true) :
    ((∀ r ∈ VectorStore.reciprocal_rank_fusion listsV 60,
        r.score = (listsV.map (fun lst =>
          specRRFContribution 60 (fun x => x.chunk_id) lst r.chunk_id)).sum)
      ∧ (VectorStore.reciprocal_rank_fusion listsV 60).Pairwise
          (fun a b => b.score ≤ a.score))
    ∧ ((∀ r ∈ HybridSearch.reciprocal_rank_fusion listsH 60,
        r.score = (listsH.map (fun lst =>
          specRRFContribution 60 (fun x => x.chunk_id) lst r.chunk_id)).sum)
      ∧ (HybridSearch.reciprocal_rank_fusion listsH 60).Pairwise
          (fun a b => b.score ≤ a.score)) :=
  ⟨vector_rrf_spec_aux listsV 60 hndV, hybrid_rrf_spec_aux listsH 60 hndH hrkH⟩

/-! ### Claim C10 -/

/-- **C10**: when RRF merges lists in which the same chunk id appears in
several places, the fused result for that id carries the `content`,
`metadata` and `match_details` of its first occurrence in scan order (earlier
input list first, then list order); fusion rewrites only the score, the
source label and the rank.  In `VectorStore._reciprocal_rank_fusion`, which
works on plain dicts with no `source` key, the first occurrence's `content`,
`metadata`, `rank` and `match_count` are carried over and only the score keys
are rewritten. -/
theorem C10_rrf_first_occurrence_wins
    (listsH : List (List SearchResult)) (listsV : List (List SearchDoc))
    (k : ℚ) :
    (∀ r ∈ HybridSearch.reciprocal_rank_fusion listsH k,
      ∃ r₀, listsH.flatten.find? (fun x => decide (x.chunk_id = r.chunk_id)) = some r₀
        ∧ r.chunk_id = r₀.chunk_id ∧ r.content = r₀.content
        ∧ r.metadata = r₀.metadata ∧ r.match_details = r₀.match_details
        ∧ r.source = "hybrid")
    ∧ (∀ r ∈ VectorStore.reciprocal_rank_fusion listsV k,
      ∃ r₀, listsV.flatten.find? (fun x => decide (x.chunk_id = r.chunk_id)) = some r₀
        ∧ r.chunk_id = r₀.chunk_id ∧ r.content = r₀.content
        ∧ r.metadata = r₀.metadata ∧ r.rank = r₀.rank
        ∧ r.match_count = r₀.match_count ∧ r.score = r.rrf_score) :=
  ⟨hybrid_rrf_first_occ_aux listsH k, vector_rrf_first_occ_aux listsV k⟩

/-- Concrete vector-store result lists for exercising the fusion theorems:
`"b"` appears in both lists, `"a"` only in the first. -/
def c2DocA : SearchDoc :=
  { chunk_id := "a", content := "doc a", metadata := [], score := 1, rank := 1 }

def c2DocB : SearchDoc :=
  { chunk_id := "b", content := "doc b", metadata := [], score := 1, rank := 2 }

def c2DocB2 : SearchDoc :=
  { chunk_id := "b", content := "doc b again", metadata := [], score := 1, rank := 1 }

def c2ListsV : List (List SearchDoc) := [[c2DocA, c2DocB], [c2DocB2]]

def c2ResA : SearchResult :=
  { chunk_id := "a", content := "doc a", metadata := [], score := 1, rank := 1,
    source := "vector", match_details := .vector 1 }

def c2ResB : SearchResult :=
  { chunk_id := "b", content := "doc b", metadata := [], score := 1, rank := 2,
    source := "vector", match_details := .vector 1 }

def c2ResB2 : SearchResult :=
  { chunk_id := "b", content := "doc b again", metadata := [], score := 1,
    rank := 1, source := "keyword", match_details := .noneDetails }

def c2ListsH : List (List SearchResult) := [[c2ResA, c2ResB], [c2ResB2]]

/-- Witness for C2 at concrete inputs: the hypotheses hold and the theorem
applies. -/
theorem C2_reciprocal_rank_fusion_formula_witness :
    ((∀ lst ∈ c2ListsV, (lst.map (fun r => r.chunk_id)).Nodup)
      ∧ (∀ lst ∈ c2ListsH, (lst.map (fun r => r.chunk_id)).Nodup)
      ∧ (∀ lst ∈ c2ListsH, ranksFrom lst 1 = true))
    ∧ (((∀ r ∈ VectorStore.reciprocal_rank_fusion c2ListsV 60,
        r.score = (c2ListsV.map (fun lst =>
          specRRFContribution 60 (fun x => x.chunk_id) lst r.chunk_id)).sum)
      ∧ (VectorStore.reciprocal_rank_fusion c2ListsV 60).Pairwise
          (fun a b => b.score ≤ a.score))
    ∧ ((∀ r ∈ HybridSearch.reciprocal_rank_fusion c2ListsH 60,
        r.score = (c2ListsH.map (fun lst =>
          specRRFContribution 60 (fun x => x.chunk_id) lst r.chunk_id)).sum)
      ∧ (HybridSearch.reciprocal_rank_fusion c2ListsH 60).Pairwise
          (fun a b => b.score ≤ a.score))) :=
  ⟨⟨by decide, by decide, by decide⟩,
    C2_reciprocal_rank_fusion_formula c2ListsV c2ListsH
      (by decide) (by decide) (by decide)⟩

/-! ### Claim C3 -/

/-- **C3 (amended)**: `add_chunks` performs no per-id deduplication on the
FAISS backend: every call appends one indexed entry per chunk in the batch,
so adding the same chunk twice leaves two indexed entries carrying its chunk
id, not one. -/
theorem C3_add_chunks_appends_duplicates (st : FaissState) (c : Chunk) :
    VectorStore.countId
        (VectorStore.add_chunks (VectorStore.add_chunks st [c]) [c]) c.chunk_id
      = VectorStore.countId st c.chunk_id + 2 := by
  simp [VectorStore.add_chunks, VectorStore.add_to_faiss, VectorStore.countId,
    List.countP_append, List.countP_cons, lookupD_dictSet_self]

/-- A concrete chunk for the C3 counterexample. -/
def c3Chunk : Chunk := { chunk_id := "c1", content := "doc", metadata := [] }

/-- **C3 (counterexample)**: adding `c3Chunk` twice to an empty store yields
two indexed entries with id `"c1"` (not one), and both are visible to the
keyword-search scan. -/
theorem C3_add_chunks_idempotence_ce :
    (VectorStore.countId
        (VectorStore.add_chunks (VectorStore.add_chunks ⟨[], []⟩ [c3Chunk])
          [c3Chunk]) "c1" = 2)
    ∧ ¬ (VectorStore.countId
        (VectorStore.add_chunks (VectorStore.add_chunks ⟨[], []⟩ [c3Chunk])
          [c3Chunk]) "c1" = 1)
    ∧ ((VectorStore.kwEntries ["doc"]
        ((VectorStore.add_chunks (VectorStore.add_chunks ⟨[], []⟩ [c3Chunk])
          [c3Chunk]).faiss_documents.zip
         (VectorStore.add_chunks (VectorStore.add_chunks ⟨[], []⟩ [c3Chunk])
          [c3Chunk]).faiss_metadata)).map (fun r => r.chunk_id)
        = ["c1", "c1"]) := by
  refine ⟨by decide, by decide, ?_⟩
  decide

/-! ### Claim C1 -/

/-- **C1 (amended)**: `VectorStore.search` applies the similarity-threshold
filter to the (possibly reranked) backend results and only then truncates to
`top_k`: every returned result meets the threshold, and the output length is
`top_k` capped by the number of results that survive the filter — a result
excluded by the threshold never occupies a top-k slot.  (The hybrid search
path does not re-apply the threshold after fusion; see the counterexample.) -/
theorem C1_search_filters_before_truncating (hasR : Bool) (rs : List ℚ)
    (backend : List SearchDoc) (θ : ℚ) (k : Nat) :
    (∀ r ∈ VectorStore.search hasR rs backend θ k, θ ≤ r.score)
    ∧ (VectorStore.search hasR rs backend θ k).length
        = min k ((if hasR && decide (0 < backend.length) then
              VectorStore.rerank_results rs backend
            else backend).filter (fun r => decide (θ ≤ r.score))).length := by
  constructor
  · intro r hr
    have hr' := List.mem_of_mem_take hr
    have := (List.mem_filter.mp hr').2
    exact of_decide_eq_true this
  · exact List.length_take _ _

/-- A backend vector result scoring well above the default similarity
threshold `0.15`. -/
def c1Doc : SearchDoc :=
  { chunk_id := "c1", content := "doc", metadata := [], score := 9 / 10, rank := 1 }

/-- **C1 (counterexample)**: on the hybrid search path the similarity
threshold is never applied after fusion.  With the default configuration, an
empty keyword corpus and a single vector hit of score `0.9`, the hybrid
output contains that document with fused RRF score `1/61 ≈ 0.016`, which is
below the configured threshold `0.15` — contradicting the claim that a
result excluded by the threshold never appears in the `top_k`-truncated
output of every search entry point. -/
theorem C1_hybrid_search_threshold_ce :
    VectorStore.hybrid_search ⟨[], []⟩ false [] [] [c1Doc]
        Settings.similarity_threshold "query" Settings.top_k_vector
        Settings.top_k_keyword Settings.top_k_final
      = [{ c1Doc with score := 1 / 61, rrf_score := 1 / 61 }]
    ∧ (1 : ℚ) / 61 < Settings.similarity_threshold := by
  constructor
  · norm_num [VectorStore.hybrid_search, VectorStore.search,
      VectorStore.keyword_search, VectorStore.kwEntries,
      VectorStore.reciprocal_rank_fusion, VectorStore.rrfList, rrfStep,
      lookupD, sortDesc, insertDesc, Settings.similarity_threshold,
      Settings.top_k_vector, Settings.top_k_keyword, Settings.top_k_final,
      c1Doc]
  · norm_num [Settings.similarity_threshold]

/-! ### Claim C4 -/

theorem search_faiss_loop_filter (st : FaissState)
    (fd : List (String × String)) (ranked : List (ℚ × Int)) (i : Nat) :
    VectorStore.search_faiss_loop st (some fd) ranked i
      = (VectorStore.search_faiss_loop st none ranked i).filter
          (fun r => VectorStore.matchesFilter fd r.metadata) := by
  induction ranked generalizing i with
  | nil => simp [VectorStore.search_faiss_loop]
  | cons p rest ih =>
    obtain ⟨dist, idx⟩ := p
    by_cases hidx : idx = -1
    · simp [VectorStore.search_faiss_loop, hidx]
    · by_cases hkeep : VectorStore.matchesFilter fd
          ((st.faiss_metadata[idx.toNat]?).getD [])
      · simp [VectorStore.search_faiss_loop, hidx, hkeep, ih]
      · simp [VectorStore.search_faiss_loop, hidx, hkeep, ih]

theorem mem_assignRanks {l : List SearchDoc} {n : Nat} {r : SearchDoc}
    (h : r ∈ VectorStore.assignRanks l n) :
    ∃ r₀ ∈ l, ∃ m : Nat, r = { r₀ with rank := m + 1 } := by
  induction l generalizing n with
  | nil => simp [VectorStore.assignRanks] at h
  | cons x xs ih =>
    rw [VectorStore.assignRanks] at h
    rcases List.mem_cons.mp h with h | h
    · exact ⟨x, List.mem_cons_self _ _, n, h⟩
    · rcases ih h with ⟨r₀, hmem, m, hr⟩
      exact ⟨r₀, List.mem_cons_of_mem _ hmem, m, hr⟩

theorem rerank_results_metadata {rs : List ℚ} {l : List SearchDoc}
    {r : SearchDoc} (h : r ∈ VectorStore.rerank_results rs l) :
    ∃ r₀ ∈ l, r.metadata = r₀.metadata := by
  rcases mem_assignRanks h with ⟨r₁, hmem, m, hr⟩
  rcases List.mem_map.mp (mem_sortDesc.mp hmem) with ⟨rr, hzip, hf⟩
  refine ⟨rr.1, (List.of_mem_zip hzip).1, ?_⟩
  rw [hr, ← hf]

/-- **C4**: the metadata filter of `_search_faiss` has AND-equality
semantics (every key/value pair of the filter must match the entry's
metadata); filtering is applied while the candidate list is formatted —
`_search_faiss` with a filter equals the unfiltered scan filtered as a
whole — and therefore happens before `search` truncates to `top_k`: every
result of a filtered `search`, reranked or not, satisfies the filter. -/
theorem C4_filter_and_semantics_before_truncation (st : FaissState)
    (fd : List (String × String)) (ranked : List (ℚ × Int)) (hasR : Bool)
    (rs : List ℚ) (θ : ℚ) (k : Nat) :
    (∀ m, VectorStore.matchesFilter fd m = true
        ↔ ∀ kv ∈ fd, lookupD kv.1 m = some kv.2)
    ∧ VectorStore.search_faiss st (some fd) ranked
        = (VectorStore.search_faiss st none ranked).filter
            (fun r => VectorStore.matchesFilter fd r.metadata)
    ∧ (∀ r ∈ VectorStore.search hasR rs
          (VectorStore.search_faiss st (some fd) ranked) θ k,
        VectorStore.matchesFilter fd r.metadata = true) := by
  refine ⟨?_, ?_, ?_⟩
  · intro m
    rw [VectorStore.matchesFilter, List.all_eq_true]
    constructor
    · intro h kv hkv
      exact of_decide_eq_true (h kv hkv)
    · intro h kv hkv
      exact decide_eq_true (h kv hkv)
  · exact search_faiss_loop_filter st fd ranked 0
  · intro r hr
    have hr' := List.mem_of_mem_take hr
    have hr'' := (List.mem_filter.mp hr').1
    have hr3 : r ∈ (if hasR && decide
        (0 < (VectorStore.search_faiss st (some fd) ranked).length) then
          VectorStore.rerank_results rs (VectorStore.search_faiss st (some fd) ranked)
        else VectorStore.search_faiss st (some fd) ranked) := hr''
    by_cases hcase : hasR && decide (0 < (VectorStore.search_faiss st (some fd) ranked).length)
    · rw [if_pos hcase] at hr3
      rcases rerank_results_metadata hr3 with ⟨r₀, hmem, hmeta⟩
      rw [VectorStore.search_faiss, search_faiss_loop_filter st fd ranked 0] at hmem
      rw [hmeta]
      exact (List.mem_filter.mp hmem).2
    · rw [if_neg hcase] at hr3
      rw [VectorStore.search_faiss, search_faiss_loop_filter st fd ranked 0] at hr3
      exact (List.mem_filter.mp hr3).2

/-! ### Claims C5 / C6: reranker helper lemmas -/

/-- The ordering invariant of reranked output: combined scores are
non-increasing along the list, and results with equal combined scores keep
their original-rank order. -/
def rerankOrd (a b : RerankResult) : Prop :=
  b.combined_score ≤ a.combined_score
    ∧ (a.combined_score = b.combined_score → a.original_rank < b.original_rank)

theorem mem_mkRerank_oranks {cm : String} {wo wr : ℚ}
    {l : List (Reranker.RDoc × ℚ)} {i : Nat} {r : RerankResult}
    (h : r ∈ Reranker.mkRerank cm wo wr l i) : i < r.original_rank := by
  induction l generalizing i with
  | nil => simp [Reranker.mkRerank] at h
  | cons p rest ih =>
    obtain ⟨doc, rs⟩ := p
    rw [Reranker.mkRerank] at h
    rcases List.mem_cons.mp h with h | h
    · rw [h]
      exact Nat.lt_succ_self i
    · exact Nat.lt_of_succ_lt (ih h)

theorem mkRerank_oranks_pairwise (cm : String) (wo wr : ℚ)
    (l : List (Reranker.RDoc × ℚ)) (i : Nat) :
    (Reranker.mkRerank cm wo wr l i).Pairwise
      (fun a b => a.original_rank < b.original_rank) := by
  induction l generalizing i with
  | nil => simp [Reranker.mkRerank]
  | cons p rest ih =>
    obtain ⟨doc, rs⟩ := p
    rw [Reranker.mkRerank]
    refine List.pairwise_cons.mpr ⟨?_, ih (i + 1)⟩
    intro z hz
    exact mem_mkRerank_oranks hz

theorem mem_mkFallback_oranks {cm : String} {wo wr : ℚ} {q : String}
    {terms : List String} {l : List Reranker.RDoc} {i : Nat} {r : RerankResult}
    (h : r ∈ Reranker.mkFallback cm wo wr q terms l i) : i < r.original_rank := by
  induction l generalizing i with
  | nil => simp [Reranker.mkFallback] at h
  | cons doc rest ih =>
    rw [Reranker.mkFallback] at h
    rcases List.mem_cons.mp h with h | h
    · rw [h]
      exact Nat.lt_succ_self i
    · exact Nat.lt_of_succ_lt (ih h)

theorem mkFallback_oranks_pairwise (cm : String) (wo wr : ℚ) (q : String)
    (terms : List String) (l : List Reranker.RDoc) (i : Nat) :
    (Reranker.mkFallback cm wo wr q terms l i).Pairwise
      (fun a b => a.original_rank < b.original_rank) := by
  induction l generalizing i with
  | nil => simp [Reranker.mkFallback]
  | cons doc rest ih =>
    rw [Reranker.mkFallback]
    refine List.pairwise_cons.mpr ⟨?_, ih (i + 1)⟩
    intro z hz
    exact mem_mkFallback_oranks hz

theorem mem_assignNewRanks {l : List RerankResult} {n : Nat} {r : RerankResult}
    (h : r ∈ Reranker.assignNewRanks l n) :
    ∃ r₀ ∈ l, ∃ m : Nat, r = { r₀ with new_rank := m + 1 } := by
  induction l generalizing n with
  | nil => simp [Reranker.assignNewRanks] at h
  | cons x xs ih =>
    rw [Reranker.assignNewRanks] at h
    rcases List.mem_cons.mp h with h | h
    · exact ⟨x, List.mem_cons_self _ _, n, h⟩
    · rcases ih h with ⟨r₀, hmem, m, hr⟩
      exact ⟨r₀, List.mem_cons_of_mem _ hmem, m, hr⟩

theorem assignNewRanks_pairwise {l : List RerankResult} {n : Nat}
    (h : l.Pairwise rerankOrd) :
    (Reranker.assignNewRanks l n).Pairwise rerankOrd := by
  induction l generalizing n with
  | nil => simp [Reranker.assignNewRanks]
  | cons x xs ih =>
    rcases List.pairwise_cons.mp h with ⟨hx, hxs⟩
    rw [Reranker.assignNewRanks]
    refine List.pairwise_cons.mpr ⟨?_, ih hxs⟩
    intro z hz
    rcases mem_assignNewRanks hz with ⟨z₀, hmem, m, hzdef⟩
    have := hx z₀ hmem
    rw [hzdef]
    exact this

theorem assignNewRanks_get (l : List RerankResult) (n i : Nat)
    (h : i < (Reranker.assignNewRanks l n).length) :
    ((Reranker.assignNewRanks l n).get ⟨i, h⟩).new_rank = n + i + 1 := by
  induction l generalizing n i with
  | nil => simp [Reranker.assignNewRanks] at h
  | cons x xs ih =>
    cases i with
    | zero => simp [Reranker.assignNewRanks]
    | succ j =>
      simp only [Reranker.assignNewRanks] at h ⊢
      have hj : j < (Reranker.assignNewRanks xs (n + 1)).length := by
        simpa using Nat.lt_of_succ_lt_succ h
      have := ih (n + 1) j hj
      simpa [Nat.add_assoc, Nat.add_comm, Nat.add_left_comm] using this

theorem length_assignNewRanks (l : List RerankResult) (n : Nat) :
    (Reranker.assignNewRanks l n).length = l.length := by
  induction l generalizing n with
  | nil => rfl
  | cons x xs ih => simp [Reranker.assignNewRanks, ih]

theorem sortDesc_rerankOrd {l : List RerankResult}
    (h : l.Pairwise (fun a b => a.original_rank < b.original_rank)) :
    (sortDesc (fun r => r.combined_score) l).Pairwise rerankOrd := by
  have := @sortDesc_pairwise _ (fun r => r.combined_score) _ _ h
  refine this.imp ?_
  intro a b hab
  rcases hab with h₁ | ⟨h₁, h₂⟩
  · exact ⟨le_of_lt h₁, fun heq => absurd heq.symm (ne_of_lt h₁)⟩
  · exact ⟨le_of_eq h₁, fun _ => h₂⟩

theorem take_rerank_props {ranked : List RerankResult} (k : Nat)
    (hp : ranked.Pairwise rerankOrd)
    (hg : ∀ i (h : i < ranked.length), (ranked.get ⟨i, h⟩).new_rank = i + 1) :
    (ranked.take k).Pairwise rerankOrd
      ∧ ∀ i (h : i < (ranked.take k).length),
          ((ranked.take k).get ⟨i, h⟩).new_rank = i + 1 := by
  refine ⟨hp.sublist (List.take_sublist k ranked), ?_⟩
  intro i h
  have hi : i < ranked.length := by
    rw [List.length_take] at h
    exact lt_of_lt_of_le h inf_le_right
  have : (ranked.take k).get ⟨i, h⟩ = ranked.get ⟨i, hi⟩ := by
    simp only [List.get_eq_getElem]
    exact List.getElem_take ranked
  rw [this]
  exact hg i hi

theorem ranked_props_aux (l : List RerankResult)
    (hp : l.Pairwise (fun a b => a.original_rank < b.original_rank)) :
    (Reranker.assignNewRanks (sortDesc (fun r => r.combined_score) l) 0).Pairwise
        rerankOrd
      ∧ ∀ i (h : i <
          (Reranker.assignNewRanks (sortDesc (fun r => r.combined_score) l) 0).length),
          ((Reranker.assignNewRanks (sortDesc (fun r => r.combined_score) l) 0).get
            ⟨i, h⟩).new_rank = i + 1 := by
  refine ⟨assignNewRanks_pairwise (sortDesc_rerankOrd hp), ?_⟩
  intro i h
  have := assignNewRanks_get (sortDesc (fun r => r.combined_score) l) 0 i h
  simpa using this

/-! ### Claim C6 -/

/-- **C6**: in every list produced by the reranker's ordering phase — the
model path (`rerank`, any per-document rerank scores) and the fallback path
(`_fallback_rerank`) alike, with or without `top_k` truncation —
`new_rank` is exactly the 1-based list position (so it strictly increases),
combined scores are non-increasing along the list, and candidates with equal
combined scores keep their original-rank order (the sort is stable). -/
theorem C6_rerank_ordering_stable (cm : String) (wo wr : ℚ)
    (docs : List Reranker.RDoc) (scores : List ℚ) (q : String)
    (docsF : List Reranker.RDoc) (top_k : Option Nat) (ra : Bool) :
    ((Reranker.rerank_order cm wo wr docs scores top_k ra).Pairwise rerankOrd
      ∧ ∀ i (h : i < (Reranker.rerank_order cm wo wr docs scores top_k ra).length),
          ((Reranker.rerank_order cm wo wr docs scores top_k ra).get
            ⟨i, h⟩).new_rank = i + 1)
    ∧ ((Reranker.fallback_rerank cm wo wr q docsF top_k).Pairwise rerankOrd
      ∧ ∀ i (h : i < (Reranker.fallback_rerank cm wo wr q docsF top_k).length),
          ((Reranker.fallback_rerank cm wo wr q docsF top_k).get
            ⟨i, h⟩).new_rank = i + 1) := by
  constructor
  · have hbase := ranked_props_aux
      (Reranker.mkRerank cm wo wr (docs.zip scores) 0)
      (mkRerank_oranks_pairwise cm wo wr (docs.zip scores) 0)
    have hdef : Reranker.rerank_order cm wo wr docs scores top_k ra
        = match top_k, ra with
          | some k, false =>
            if k = 0 then
              Reranker.assignNewRanks (sortDesc (fun r => r.combined_score)
                (Reranker.mkRerank cm wo wr (docs.zip scores) 0)) 0
            else
              (Reranker.assignNewRanks (sortDesc (fun r => r.combined_score)
                (Reranker.mkRerank cm wo wr (docs.zip scores) 0)) 0).take k
          | _, _ =>
            Reranker.assignNewRanks (sortDesc (fun r => r.combined_score)
              (Reranker.mkRerank cm wo wr (docs.zip scores) 0)) 0 := rfl
    rw [hdef]
    cases top_k with
    | none => exact hbase
    | some k =>
      cases ra with
      | true => exact hbase
      | false =>
        by_cases hk : k = 0
        · simpa [hk] using hbase
        · simpa [hk] using take_rerank_props k hbase.1 hbase.2
  · have hbase := ranked_props_aux
      (Reranker.mkFallback cm wo wr q ((pyWords (lowerStr q)).dedup) docsF 0)
      (mkFallback_oranks_pairwise cm wo wr q _ docsF 0)
    have hdef : Reranker.fallback_rerank cm wo wr q docsF top_k
        = match top_k with
          | some k =>
            if k = 0 then
              Reranker.assignNewRanks (sortDesc (fun r => r.combined_score)
                (Reranker.mkFallback cm wo wr q ((pyWords (lowerStr q)).dedup)
                  docsF 0)) 0
            else
              (Reranker.assignNewRanks (sortDesc (fun r => r.combined_score)
                (Reranker.mkFallback cm wo wr q ((pyWords (lowerStr q)).dedup)
                  docsF 0)) 0).take k
          | none =>
            Reranker.assignNewRanks (sortDesc (fun r => r.combined_score)
              (Reranker.mkFallback cm wo wr q ((pyWords (lowerStr q)).dedup)
                docsF 0)) 0 := rfl
    rw [hdef]
    cases top_k with
    | none => exact hbase
    | some k =>
      by_cases hk : k = 0
      · simpa [hk] using hbase
      · simpa [hk] using take_rerank_props k hbase.1 hbase.2

/-! ### Claim C5 -/

/-- The spec's lexical-overlap fallback score: fraction of (distinct) query
terms contained in the lowercased content, doubled when the whole lowercased
query phrase is contained, and `0` for an empty term set. -/
def lexOverlapScore (q content : String) : ℚ :=
  let query_terms := (pyWords (lowerStr q)).dedup
  let content_lower := lowerStr content
  let matches0 := query_terms.countP (fun term => strHasSub content_lower term)
  let matchCnt :=
    if strHasSub content_lower (lowerStr q) then matches0 * 2 else matches0
  if query_terms.isEmpty then 0
  else (matchCnt : ℚ) / (query_terms.length : ℚ)

theorem length_mkFallback (cm : String) (wo wr : ℚ) (q : String)
    (terms : List String) (l : List Reranker.RDoc) (i : Nat) :
    (Reranker.mkFallback cm wo wr q terms l i).length = l.length := by
  induction l generalizing i with
  | nil => rfl
  | cons doc rest ih => simp [Reranker.mkFallback, ih]

theorem mem_mkFallback_fields {cm : String} {wo wr : ℚ} {q : String}
    {l : List Reranker.RDoc} {i : Nat} {r : RerankResult}
    (h : r ∈ Reranker.mkFallback cm wo wr q ((pyWords (lowerStr q)).dedup) l i) :
    r.rerank_score = lexOverlapScore q r.content
    ∧ r.combined_score
        = Reranker.combine_scores cm wo wr r.original_score r.rerank_score := by
  induction l generalizing i with
  | nil => simp [Reranker.mkFallback] at h
  | cons doc rest ih =>
    rw [Reranker.mkFallback] at h
    rcases List.mem_cons.mp h with h | h
    · rw [h]
      exact ⟨rfl, rfl⟩
    · exact ih h

/-- **C5**: with the rerank model unavailable, `rerank` delegates to
`_fallback_rerank`, which (with no truncation requested) returns one fully
populated `RerankResult` per candidate: the list is never empty for a
non-empty candidate list, every `rerank_score` equals the lexical-overlap
fraction of query terms in the content (doubled for exact phrase
containment), and every `combined_score` is the default weighted combination
`0.3 * original + 0.7 * rerank` of that fallback score and the original
score. -/
theorem C5_fallback_rerank_graceful (q : String) (docs : List Reranker.RDoc)
    (hne : docs ≠ []) :
    (Reranker.fallback_rerank "weighted" (3 / 10) (7 / 10) q docs none).length
        = docs.length
    ∧ Reranker.fallback_rerank "weighted" (3 / 10) (7 / 10) q docs none ≠ []
    ∧ ∀ r ∈ Reranker.fallback_rerank "weighted" (3 / 10) (7 / 10) q docs none,
        r.rerank_score = lexOverlapScore q r.content
        ∧ r.combined_score
            = 3 / 10 * r.original_score + 7 / 10 * r.rerank_score := by
  have hlen : (Reranker.fallback_rerank "weighted" (3 / 10) (7 / 10) q docs
      none).length = docs.length := by
    show (Reranker.assignNewRanks (sortDesc (fun r => r.combined_score)
      (Reranker.mkFallback "weighted" (3 / 10) (7 / 10) q
        ((pyWords (lowerStr q)).dedup) docs 0)) 0).length = docs.length
    rw [length_assignNewRanks, length_sortDesc, length_mkFallback]
  refine ⟨hlen, ?_, ?_⟩
  · intro hnil
    apply hne
    have := hlen
    rw [hnil] at this
    exact List.length_eq_zero.mp this.symm
  · intro r hr
    have hr' : r ∈ Reranker.assignNewRanks (sortDesc (fun r => r.combined_score)
      (Reranker.mkFallback "weighted" (3 / 10) (7 / 10) q
        ((pyWords (lowerStr q)).dedup) docs 0)) 0 := hr
    rcases mem_assignNewRanks hr' with ⟨r₀, hmem, m, hrdef⟩
    have hfields := mem_mkFallback_fields (mem_sortDesc.mp hmem)
    have h1 : r.rerank_score = lexOverlapScore q r.content := by
      rw [hrdef]
      exact hfields.1
    refine ⟨h1, ?_⟩
    have h2 : r.combined_score
        = Reranker.combine_scores "weighted" (3 / 10) (7 / 10)
            r.original_score r.rerank_score := by
      rw [hrdef]
      exact hfields.2
    rw [h2, Reranker.combine_scores, if_pos rfl]

/-- Concrete candidate document for the C5 witness. -/
def c5Doc : Reranker.RDoc :=
  { chunk_id := some "d1", content := "alpha gamma", metadata := [],
    score := 1 / 2 }

/-- Witness for C5 at a concrete input. -/
theorem C5_fallback_rerank_graceful_witness :
    ([c5Doc] ≠ [])
    ∧ ((Reranker.fallback_rerank "weighted" (3 / 10) (7 / 10) "alpha beta"
          [c5Doc] none).length = [c5Doc].length
      ∧ Reranker.fallback_rerank "weighted" (3 / 10) (7 / 10) "alpha beta"
          [c5Doc] none ≠ []
      ∧ ∀ r ∈ Reranker.fallback_rerank "weighted" (3 / 10) (7 / 10) "alpha beta"
          [c5Doc] none,
          r.rerank_score = lexOverlapScore "alpha beta" r.content
          ∧ r.combined_score
              = 3 / 10 * r.original_score + 7 / 10 * r.rerank_score) :=
  ⟨by simp, C5_fallback_rerank_graceful "alpha beta" [c5Doc] (by simp)⟩

/-! ### Claim C7 -/

theorem length_dictSet {β : Type} (d : List (String × β)) (k : String) (v : β) :
    (dictSet d k v).length ≤ d.length + 1 := by
  induction d with
  | nil => simp [dictSet]
  | cons p rest ih =>
    by_cases h : p.1 = k
    · simp [dictSet, h]
    · simp only [dictSet, if_neg h, List.length_cons]
      exact Nat.succ_le_succ ih

theorem update_cache_bound (maxs evict : Nat) (hev : 1 ≤ evict)
    (hevm : evict ≤ maxs) (cache : List (String × ℚ)) (key : String) (v : ℚ)
    (hb : cache.length ≤ maxs) :
    (Reranker.update_cache maxs evict cache key v).length ≤ maxs := by
  rw [show Reranker.update_cache maxs evict cache key v
    = dictSet (if maxs ≤ cache.length then cache.drop evict else cache) key v
    from rfl]
  by_cases h : maxs ≤ cache.length
  · rw [if_pos h]
    have hlen : cache.length = maxs := le_antisymm hb h
    have h1 : (dictSet (cache.drop evict) key v).length
        ≤ (cache.drop evict).length + 1 := length_dictSet _ _ _
    rw [List.length_drop, hlen] at h1
    omega
  · rw [if_neg h]
    have h1 : (dictSet cache key v).length ≤ cache.length + 1 :=
      length_dictSet _ _ _
    omega

theorem foldl_update_cache_bound (maxs evict : Nat) (hev : 1 ≤ evict)
    (hevm : evict ≤ maxs) (ops : List (String × ℚ))
    (init : List (String × ℚ)) (hinit : init.length ≤ maxs) :
    (ops.foldl (fun c kv => Reranker.update_cache maxs evict c kv.1 kv.2)
      init).length ≤ maxs := by
  induction ops generalizing init with
  | nil => simpa using hinit
  | cons kv rest ih =>
    exact ih _ (update_cache_bound maxs evict hev hevm init kv.1 kv.2 hinit)

/-- **C7**: the reranker's score cache is bounded.  With the source's
constants (`max_cache_size = 1000`, eviction count `int(1000 * 0.2) = 200`),
and in general whenever `1 ≤ evict ≤ max`: a cache insertion on a full cache
first deletes the oldest `evict` entries in FIFO insertion order
(`List.drop evict` on the insertion-ordered dict) and then stores the new
entry; the entry count never exceeds `max` after any insertion, and over any
sequence of insertions starting from the empty cache the bound `max` always
holds. -/
theorem C7_cache_bounded (maxs evict : Nat) (cache : List (String × ℚ))
    (key : String) (v : ℚ) (ops : List (String × ℚ))
    (hev : 1 ≤ evict) (hevm : evict ≤ maxs) (hb : cache.length ≤ maxs) :
    (Reranker.update_cache maxs evict cache key v).length ≤ maxs
    ∧ (maxs ≤ cache.length →
        Reranker.update_cache maxs evict cache key v
          = dictSet (cache.drop evict) key v)
    ∧ (ops.foldl (fun c kv => Reranker.update_cache maxs evict c kv.1 kv.2)
        []).length ≤ maxs := by
  refine ⟨update_cache_bound maxs evict hev hevm cache key v hb, ?_, ?_⟩
  · intro h
    rw [show Reranker.update_cache maxs evict cache key v
      = dictSet (if maxs ≤ cache.length then cache.drop evict else cache) key v
      from rfl, if_pos h]
  · exact foldl_update_cache_bound maxs evict hev hevm ops [] (by simp)

/-- Witness for C7 at the source's constants (`1000` / `200`) and a concrete
insertion sequence. -/
theorem C7_cache_bounded_witness :
    (1 ≤ Reranker.evict_count ∧ Reranker.evict_count ≤ Reranker.max_cache_size
      ∧ ([] : List (String × ℚ)).length ≤ Reranker.max_cache_size)
    ∧ ((Reranker.update_cache Reranker.max_cache_size Reranker.evict_count []
          "k" 1).length ≤ Reranker.max_cache_size
      ∧ (Reranker.max_cache_size ≤ ([] : List (String × ℚ)).length →
          Reranker.update_cache Reranker.max_cache_size Reranker.evict_count []
            "k" 1 = dictSet (([] : List (String × ℚ)).drop
              Reranker.evict_count) "k" 1)
      ∧ (([("a", (1 : ℚ)), ("b", 2)]).foldl
          (fun c kv => Reranker.update_cache Reranker.max_cache_size
            Reranker.evict_count c kv.1 kv.2) []).length
          ≤ Reranker.max_cache_size) :=
  ⟨⟨by decide, by decide, by decide⟩,
    C7_cache_bounded Reranker.max_cache_size Reranker.evict_count [] "k" 1
      [("a", 1), ("b", 2)] (by decide) (by decide) (by decide)⟩

/-! ### Claim C8 -/

theorem le_maxQ_init (x : ℚ) (l : List ℚ) : x ≤ HybridSearch.maxQ x l := by
  induction l generalizing x with
  | nil => simp [HybridSearch.maxQ]
  | cons y ys ih =>
    calc x ≤ max x y := le_max_left x y
      _ ≤ HybridSearch.maxQ (max x y) ys := ih (max x y)

theorem le_maxQ_mem {x y : ℚ} {l : List ℚ} (h : y ∈ l) :
    y ≤ HybridSearch.maxQ x l := by
  induction l generalizing x with
  | nil => simp at h
  | cons z zs ih =>
    rcases List.mem_cons.mp h with h | h
    · subst h
      calc y ≤ max x y := le_max_right x y
        _ ≤ HybridSearch.maxQ (max x y) zs := le_maxQ_init _ _
    · exact ih h

theorem minQ_le_init (x : ℚ) (l : List ℚ) : HybridSearch.minQ x l ≤ x := by
  induction l generalizing x with
  | nil => simp [HybridSearch.minQ]
  | cons y ys ih =>
    calc HybridSearch.minQ (min x y) ys ≤ min x y := ih (min x y)
      _ ≤ x := min_le_left x y

theorem minQ_le_mem {x y : ℚ} {l : List ℚ} (h : y ∈ l) :
    HybridSearch.minQ x l ≤ y := by
  induction l generalizing x with
  | nil => simp at h
  | cons z zs ih =>
    rcases List.mem_cons.mp h with h | h
    · subst h
      calc HybridSearch.minQ (min x y) zs ≤ min x y := minQ_le_init _ _
        _ ≤ y := min_le_right x y
    · exact ih h

theorem maxQ_const {x : ℚ} {l : List ℚ} (h : ∀ y ∈ l, y = x) :
    HybridSearch.maxQ x l = x := by
  induction l with
  | nil => rfl
  | cons y ys ih =>
    have hy : y = x := h y (List.mem_cons_self _ _)
    subst hy
    show HybridSearch.maxQ (max y y) ys = y
    rw [max_self]
    exact ih (fun z hz => h z (List.mem_cons_of_mem _ hz))

theorem minQ_const {x : ℚ} {l : List ℚ} (h : ∀ y ∈ l, y = x) :
    HybridSearch.minQ x l = x := by
  induction l with
  | nil => rfl
  | cons y ys ih =>
    have hy : y = x := h y (List.mem_cons_self _ _)
    subst hy
    show HybridSearch.minQ (min y y) ys = y
    rw [min_self]
    exact ih (fun z hz => h z (List.mem_cons_of_mem _ hz))

/-- **C8**: the min–max normalization step used by `_weighted_fusion` leaves
any list whose scores are all equal (zero range) unnormalized — the identity,
so no division by the zero range is ever performed — while a list containing
two different scores (positive range) is rescaled so that every normalized
score lies in `[0, 1]`. -/
theorem C8_weighted_fusion_zero_range_safe (l : List SearchResult) :
    ((∀ a ∈ l, ∀ b ∈ l, a.score = b.score) → HybridSearch.normalizeList l = l)
    ∧ ((∃ a ∈ l, ∃ b ∈ l, a.score ≠ b.score) →
        ∀ r ∈ HybridSearch.normalizeList l, 0 ≤ r.score ∧ r.score ≤ 1) := by
  constructor
  · intro hconst
    cases l with
    | nil => rfl
    | cons r0 rest =>
      have hall : ∀ y ∈ rest.map (fun r => r.score), y = r0.score := by
        intro y hy
        rcases List.mem_map.mp hy with ⟨r, hr, hry⟩
        rw [← hry]
        exact hconst r (List.mem_cons_of_mem _ hr) r0 (List.mem_cons_self _ _)
      have hrange : HybridSearch.maxQ r0.score (rest.map (fun r => r.score))
          - HybridSearch.minQ r0.score (rest.map (fun r => r.score)) = 0 := by
        rw [maxQ_const hall, minQ_const hall]
        ring
      rw [HybridSearch.normalizeList, hrange]
      simp
  · intro hdiff r hr
    cases l with
    | nil => simp [HybridSearch.normalizeList] at hr
    | cons r0 rest =>
      set ms := HybridSearch.maxQ r0.score (rest.map (fun r => r.score)) with hms
      set mn := HybridSearch.minQ r0.score (rest.map (fun r => r.score)) with hmn
      have hscore_le : ∀ a ∈ r0 :: rest, mn ≤ a.score ∧ a.score ≤ ms := by
        intro a ha
        rcases List.mem_cons.mp ha with ha | ha
        · subst ha
          exact ⟨minQ_le_init _ _, le_maxQ_init _ _⟩
        · have hmem : a.score ∈ rest.map (fun r => r.score) :=
            List.mem_map.mpr ⟨a, ha, rfl⟩
          exact ⟨minQ_le_mem hmem, le_maxQ_mem hmem⟩
      have hrangepos : 0 < ms - mn := by
        rcases hdiff with ⟨a, ha, b, hb, hab⟩
        rcases hscore_le a ha with ⟨ha1, ha2⟩
        rcases hscore_le b hb with ⟨hb1, hb2⟩
        rcases lt_or_le 0 (ms - mn) with h | h
        · exact h
        · exfalso
          apply hab
          have : ms ≤ mn := by linarith
          have h1 : a.score = mn := le_antisymm (by linarith) ha1
          have h2 : b.score = mn := le_antisymm (by linarith) hb1
          rw [h1, h2]
      rw [HybridSearch.normalizeList, ← hms, ← hmn] at hr
      rw [if_pos hrangepos] at hr
      rcases List.mem_map.mp hr with ⟨a, ha, har⟩
      rcases hscore_le a ha with ⟨h1, h2⟩
      have hsc : r.score = (a.score - mn) / (ms - mn) := by rw [← har]
      constructor
      · rw [hsc]
        apply div_nonneg (by linarith) (le_of_lt hrangepos)
      · rw [hsc]
        rw [div_le_one hrangepos]
        linarith

/-- Concrete constant-score list (zero range) for the C8 witness. -/
def c8ConstList : List SearchResult :=
  [{ chunk_id := "x", content := "cx", metadata := [], score := 1, rank := 1,
     source := "vector", match_details := .noneDetails },
   { chunk_id := "y", content := "cy", metadata := [], score := 1, rank := 2,
     source := "vector", match_details := .noneDetails }]

/-- Concrete varied-score list (positive range) for the C8 witness. -/
def c8VarList : List SearchResult :=
  [{ chunk_id := "x", content := "cx", metadata := [], score := 1, rank := 1,
     source := "vector", match_details := .noneDetails },
   { chunk_id := "y", content := "cy", metadata := [], score := 3, rank := 2,
     source := "vector", match_details := .noneDetails }]

/-- Witness for C8 at concrete inputs: a constant list is returned unchanged,
and a varied list is normalized into `[0, 1]`. -/
theorem C8_weighted_fusion_zero_range_safe_witness :
    ((∀ a ∈ c8ConstList, ∀ b ∈ c8ConstList, a.score = b.score)
      ∧ HybridSearch.normalizeList c8ConstList = c8ConstList)
    ∧ ((∃ a ∈ c8VarList, ∃ b ∈ c8VarList, a.score ≠ b.score)
      ∧ ∀ r ∈ HybridSearch.normalizeList c8VarList,
          0 ≤ r.score ∧ r.score ≤ 1) :=
  ⟨⟨by decide, (C8_weighted_fusion_zero_range_safe c8ConstList).1 (by decide)⟩,
   ⟨by decide, (C8_weighted_fusion_zero_range_safe c8VarList).2 (by decide)⟩⟩

/-! ### Claim C9 -/

theorem bm25_nil_query (k1 b : ℚ) (idf : String → ℚ) (content : String)
    (avgdl : ℚ) :
    HybridSearch.calculate_bm25_score k1 b idf [] content avgdl = 0 := rfl

theorem tokenize_eq_nil_of_stopwords {text : String}
    (h : ∀ t ∈ HybridSearch.rawTokens text, t ∈ HybridSearch.stopwords) :
    HybridSearch.tokenize text = [] := by
  rw [HybridSearch.tokenize, List.filter_eq_nil_iff]
  intro t ht
  simp only [decide_eq_true_eq, not_and, not_not]
  intro _
  exact h t ht

/-- **C9**: for every corpus, a keyword search whose query is empty or whose
words are all stopwords (and with no boost keywords) produces no BM25-scored
candidates and returns the empty result list — no error path exists. -/
theorem C9_keyword_search_stopword_query (all_docs : List Chunk) (q : String)
    (top_k : Nat) (idf : String → ℚ)
    (hstop : ∀ t ∈ HybridSearch.rawTokens (lowerStr q),
      t ∈ HybridSearch.stopwords) :
    HybridSearch.keyword_search all_docs q top_k [] idf = [] := by
  have htok : HybridSearch.tokenize (lowerStr q) = [] :=
    tokenize_eq_nil_of_stopwords hstop
  by_cases hemp : all_docs.isEmpty
  · simp [HybridSearch.keyword_search, hemp]
  · simp only [HybridSearch.keyword_search, hemp, htok, bm25_nil_query,
      Bool.false_eq_true, if_false, List.map_nil, List.append_nil, lt_irrefl,
      if_neg (lt_irrefl (0 : ℚ))]
    have hfm : List.filterMap (fun _ => (none : Option (Chunk × ℚ))) all_docs
        = [] := List.filterMap_eq_nil_iff.mpr (fun a _ => rfl)
    rw [hfm]
    simp [sortDesc, HybridSearch.mkKeywordResults]

/-- Witness for C9: a stopword-only Spanish query against a one-document
corpus returns the empty list. -/
theorem C9_keyword_search_stopword_query_witness :
    (∀ t ∈ HybridSearch.rawTokens (lowerStr "el la de"),
      t ∈ HybridSearch.stopwords)
    ∧ HybridSearch.keyword_search
        [{ chunk_id := "c1", content := "contenido util", metadata := [] }]
        "el la de" 5 [] (fun _ => 2) = [] :=
  ⟨by decide,
    C9_keyword_search_stopword_query
      [{ chunk_id := "c1", content := "contenido util", metadata := [] }]
      "el la de" 5 (fun _ => 2) (by decide)⟩

/-! ### Instantiation witnesses for the universally quantified claim theorems -/

/-- Witness for C1's amended theorem at a concrete input. -/
theorem C1_search_filters_before_truncating_witness :
    (∀ r ∈ VectorStore.search false [] [c1Doc] (3 / 20) 5, (3 : ℚ) / 20 ≤ r.score)
    ∧ (VectorStore.search false [] [c1Doc] (3 / 20) 5).length
        = min 5 ((if false && decide (0 < ([c1Doc] : List SearchDoc).length) then
              VectorStore.rerank_results [] [c1Doc]
            else [c1Doc]).filter
              (fun r => decide ((3 : ℚ) / 20 ≤ r.score))).length :=
  C1_search_filters_before_truncating false [] [c1Doc] (3 / 20) 5

/-- Witness for C3's amended theorem at a concrete input. -/
theorem C3_add_chunks_appends_duplicates_witness :
    VectorStore.countId
        (VectorStore.add_chunks (VectorStore.add_chunks ⟨[], []⟩ [c3Chunk])
          [c3Chunk]) c3Chunk.chunk_id
      = VectorStore.countId (⟨[], []⟩ : FaissState) c3Chunk.chunk_id + 2 :=
  C3_add_chunks_appends_duplicates ⟨[], []⟩ c3Chunk

/-- A concrete store, filter and FAISS answer for the C4 witness. -/
def c4Store : FaissState :=
  { faiss_documents := ["doc a", "doc b"],
    faiss_metadata := [[("chunk_id", "c1"), ("t", "a")],
                       [("chunk_id", "c2"), ("t", "b")]] }

/-- Witness for C4 at a concrete input. -/
theorem C4_filter_and_semantics_before_truncation_witness :
    (∀ m, VectorStore.matchesFilter [("t", "a")] m = true
        ↔ ∀ kv ∈ [("t", "a")], lookupD kv.1 m = some kv.2)
    ∧ VectorStore.search_faiss c4Store (some [("t", "a")]) [(1 / 2, 0), (1 / 3, 1)]
        = (VectorStore.search_faiss c4Store none [(1 / 2, 0), (1 / 3, 1)]).filter
            (fun r => VectorStore.matchesFilter [("t", "a")] r.metadata)
    ∧ (∀ r ∈ VectorStore.search false []
          (VectorStore.search_faiss c4Store (some [("t", "a")])
            [(1 / 2, 0), (1 / 3, 1)]) 0 5,
        VectorStore.matchesFilter [("t", "a")] r.metadata = true) :=
  C4_filter_and_semantics_before_truncation c4Store [("t", "a")]
    [(1 / 2, 0), (1 / 3, 1)] false [] 0 5

/-- Witness for C6 at a concrete input. -/
theorem C6_rerank_ordering_stable_witness :
    ((Reranker.rerank_order "weighted" (3 / 10) (7 / 10) [c5Doc] [1] none
        false).Pairwise rerankOrd
      ∧ ∀ i (h : i < (Reranker.rerank_order "weighted" (3 / 10) (7 / 10)
          [c5Doc] [1] none false).length),
          ((Reranker.rerank_order "weighted" (3 / 10) (7 / 10) [c5Doc] [1] none
            false).get ⟨i, h⟩).new_rank = i + 1)
    ∧ ((Reranker.fallback_rerank "weighted" (3 / 10) (7 / 10) "alpha" [c5Doc]
        none).Pairwise rerankOrd
      ∧ ∀ i (h : i < (Reranker.fallback_rerank "weighted" (3 / 10) (7 / 10)
          "alpha" [c5Doc] none).length),
          ((Reranker.fallback_rerank "weighted" (3 / 10) (7 / 10) "alpha"
            [c5Doc] none).get ⟨i, h⟩).new_rank = i + 1) :=
  C6_rerank_ordering_stable "weighted" (3 / 10) (7 / 10) [c5Doc] [1] "alpha"
    [c5Doc] none false

/-- Witness for C10 at a concrete input. -/
theorem C10_rrf_first_occurrence_wins_witness :
    (∀ r ∈ HybridSearch.reciprocal_rank_fusion c2ListsH 60,
      ∃ r₀, c2ListsH.flatten.find? (fun x => decide (x.chunk_id = r.chunk_id))
          = some r₀
        ∧ r.chunk_id = r₀.chunk_id ∧ r.content = r₀.content
        ∧ r.metadata = r₀.metadata ∧ r.match_details = r₀.match_details
        ∧ r.source = "hybrid")
    ∧ (∀ r ∈ VectorStore.reciprocal_rank_fusion c2ListsV 60,
      ∃ r₀, c2ListsV.flatten.find? (fun x => decide (x.chunk_id = r.chunk_id))
          = some r₀
        ∧ r.chunk_id = r₀.chunk_id ∧ r.content = r₀.content
        ∧ r.metadata = r₀.metadata ∧ r.rank = r₀.rank
        ∧ r.match_count = r₀.match_count ∧ r.score = r.rrf_score) :=
  C10_rrf_first_occurrence_wins c2ListsH c2ListsV 60
